import Mathlib

/-!
# Verification of the AST calculator (`src/lib.rs`)

A shallow embedding of the expression parser and evaluator from the
`ast` crate.  The parser in the source is a recursive-descent parser
built on `nom` combinators over `&str`; we model the input as
`List Char` and the parser as a fuel-indexed structurally recursive
function (`runParse`), with the public entry point `parse_expression`
supplying enough fuel (proved sufficient below).

Numeric values: the source uses `f64`; we model values as `ℚ`.  Every
numeric fact asserted by the claims is exact in `ℚ` and lies far inside
the `1e-10` tolerance the spec allows, so the rational abstraction is
faithful for all the statements proved here.  The numeric-literal
grammar follows nom 7's `recognize_float` exactly (optional sign,
`digits [. digits?]` or `. digits`, optional `e/E [sign] digits` with
the exponent digits mandatory once `e`/`E` is consumed — nom's `cut`);
the `inf`/`nan` exception branch of nom's `double` is outside the
rational abstraction and is not exercised by any claim.
-/

namespace AstCalc

/-- The AST from `src/lib.rs` (`enum Expr`): a float leaf and four
binary operators, children owned (here: plain subterms). -/
inductive Expr where
  | float : ℚ → Expr
  | add : Expr → Expr → Expr
  | sub : Expr → Expr → Expr
  | mul : Expr → Expr → Expr
  | div : Expr → Expr → Expr
deriving DecidableEq, Repr

/-- `enum EvaluationError` from `src/lib.rs`: the only evaluation error. -/
inductive EvaluationError where
  | divisionByZero
deriving DecidableEq, Repr

/-- `Result<f64, EvaluationError>` from the evaluator's signature. -/
inductive EvalResult where
  | ok : ℚ → EvalResult
  | err : EvaluationError → EvalResult
deriving DecidableEq, Repr

/-- `evaluate` from `src/lib.rs`: structural recursion over the tree.
`Add`/`Sub`/`Mul` evaluate left then right; `Div` evaluates the right
child first, fails with `DivisionByZero` when the denominator is
exactly zero, and only then evaluates the left child. -/
def evaluate : Expr → EvalResult
  | .float v => .ok v
  | .add l r =>
    match evaluate l with
    | .err e => .err e
    | .ok a =>
      match evaluate r with
      | .err e => .err e
      | .ok b => .ok (a + b)
  | .sub l r =>
    match evaluate l with
    | .err e => .err e
    | .ok a =>
      match evaluate r with
      | .err e => .err e
      | .ok b => .ok (a - b)
  | .mul l r =>
    match evaluate l with
    | .err e => .err e
    | .ok a =>
      match evaluate r with
      | .err e => .err e
      | .ok b => .ok (a * b)
  | .div l r =>
    match evaluate r with
    | .err e => .err e
    | .ok d =>
      if d = 0 then .err .divisionByZero
      else
        match evaluate l with
        | .err e => .err e
        | .ok n => .ok (n / d)

/-! ## The numeric-literal parser (nom's `double` on `&str`) -/

/-- The characters consumed by nom's `multispace0`. -/
def isWS (c : Char) : Bool :=
  c = ' ' || c = '\t' || c = '\n' || c = '\r'

/-- `multispace0`: drop leading whitespace. -/
def dropWS (s : List Char) : List Char := s.dropWhile isWS

/-- Decimal digits to a natural number (most significant first). -/
def digitsToNat (ds : List Char) : Nat :=
  ds.foldl (fun a c => 10 * a + (c.toNat - 48)) 0

/-- The optional leading sign of `recognize_float`: an explicit `+` or
`-` is consumed, anything else leaves the input untouched. -/
def splitSign (input : List Char) : ℚ × List Char :=
  match input with
  | [] => (1, [])
  | c :: t =>
    if c = '+' then (1, t)
    else if c = '-' then (-1, t)
    else (1, c :: t)

/-- The mantissa alternative of `recognize_float`:
`digit1 (. digit0)?` or `. digit1`.  Returns the unconsumed rest and
the mantissa value. -/
def parseMantissa : List Char → Option (List Char × ℚ)
  | [] => none
  | c :: t =>
    if c.isDigit then
      let ds := (c :: t).takeWhile Char.isDigit
      let s2 := (c :: t).dropWhile Char.isDigit
      match s2 with
      | '.' :: u =>
        let fs := u.takeWhile Char.isDigit
        let s3 := u.dropWhile Char.isDigit
        some (s3, (digitsToNat ds : ℚ) + (digitsToNat fs : ℚ) / (10 : ℚ) ^ fs.length)
      | _ => some (s2, (digitsToNat ds : ℚ))
    else if c = '.' then
      let fs := t.takeWhile Char.isDigit
      if fs = [] then none
      else some (t.dropWhile Char.isDigit, (digitsToNat fs : ℚ) / (10 : ℚ) ^ fs.length)
    else none

/-- The optional sign after `e`/`E` in `recognize_float`'s exponent:
consumed when explicit, otherwise the input is untouched.  Returns
whether the exponent is negative. -/
def splitExpSign : List Char → Bool × List Char
  | [] => (false, [])
  | d :: u =>
    if d = '+' then (false, u)
    else if d = '-' then (true, u)
    else (false, d :: u)

/-- The optional exponent of `recognize_float`: `e`/`E`, optional sign,
then mandatory digits (nom wraps them in `cut`, so `e` followed by no
digit fails the whole literal).  Returns the rest together with the
exponent as a scaling action: `(negative?, magnitude)`. -/
def parseExponent (s : List Char) : Option (List Char × Bool × Nat) :=
  match s with
  | [] => some ([], false, 0)
  | c :: t =>
    if c = 'e' ∨ c = 'E' then
      let st := splitExpSign t
      let es := st.2.takeWhile Char.isDigit
      if es = [] then none
      else some (st.2.dropWhile Char.isDigit, st.1, digitsToNat es)
    else some (c :: t, false, 0)

/-- `parse_number` from `src/lib.rs`: nom's `double`, i.e.
`recognize_float` followed by conversion of the recognized text to a
number (here: the exact rational the text denotes). -/
def parse_number (input : List Char) : Option (List Char × ℚ) :=
  let sg := splitSign input
  match parseMantissa sg.2 with
  | none => none
  | some (s2, m) =>
    match parseExponent s2 with
    | none => none
    | some (s3, eneg, emag) =>
      some (s3, if eneg then sg.1 * m / (10 : ℚ) ^ emag
                else sg.1 * m * (10 : ℚ) ^ emag)

/-! ## The recursive-descent parser

The mutually recursive functions `parse_parenthesized`, `parse_factor`,
`parse_term` (with its `*`/`/` loop) and `parse_expression` (with its
`+`/`-` loop) from `src/lib.rs` are embedded as one fuel-indexed
function `runParse`, structurally recursive on the fuel, dispatching on
a `Call` tag.  Every recursive call of the source corresponds to one
fuel decrement; fuel `6 * input.length + 6` is proved sufficient below
(`runParse_no_timeout`), so the public wrapper never times out. -/

/-- nom's `IResult<&str, Expr>` outcome, plus the fuel-exhaustion
marker `timeout` that the sufficiency theorem rules out. -/
inductive PRes where
  | timeout
  | fail
  | ok : List Char → Expr → PRes
deriving DecidableEq, Repr

/-- Which of the source's parser functions is being run, with its
arguments (`termLoop`/`exprLoop` are the accumulating loops inside
`parse_term`/`parse_expression`). -/
inductive Call where
  | paren : List Char → Call
  | factor : List Char → Call
  | termLoop : List Char → Expr → Call
  | term : List Char → Call
  | exprLoop : List Char → Expr → Call
  | expr : List Char → Call
deriving DecidableEq

/-- One step of the source's mutual recursion: each branch is a direct
transcription of the corresponding function in `src/lib.rs`, with
`rec` standing for the recursive calls. -/
def runParseStep (rec : Call → PRes) : Call → PRes
  | .paren input =>
    -- parse_parenthesized: char('('), parse_expression, char(')')
    match input with
    | [] => .fail
    | c0 :: t =>
      if c0 = '(' then
        match rec (.expr t) with
        | .timeout => .timeout
        | .fail => .fail
        | .ok rest e =>
          match rest with
          | [] => .fail
          | c1 :: r2 => if c1 = ')' then .ok r2 e else .fail
      else .fail
  | .factor input =>
    -- parse_factor: multispace0, then parenthesized, else number,
    -- both attempted at the same (post-whitespace) position
    match rec (.paren (dropWS input)) with
    | .timeout => .timeout
    | .ok rest e => .ok rest e
    | .fail =>
      match parse_number (dropWS input) with
      | some (rest, v) => .ok rest (.float v)
      | none => .fail
  | .termLoop rem left =>
    -- the loop of parse_term: multispace0, then '*' or '/', then a
    -- factor; on break the pre-whitespace `rem` is returned
    match dropWS rem with
    | [] => .ok rem left
    | c0 :: t =>
      if c0 = '*' then
        match rec (.factor t) with
        | .timeout => .timeout
        | .fail => .fail
        | .ok ni right => rec (.termLoop ni (.mul left right))
      else if c0 = '/' then
        match rec (.factor t) with
        | .timeout => .timeout
        | .fail => .fail
        | .ok ni right => rec (.termLoop ni (.div left right))
      else .ok rem left
  | .term input =>
    -- parse_term: one factor, then the loop
    match rec (.factor input) with
    | .timeout => .timeout
    | .fail => .fail
    | .ok rem left => rec (.termLoop rem left)
  | .exprLoop rem left =>
    -- the loop of parse_expression: multispace0, then '+' or '-',
    -- then a term; on break the pre-whitespace `rem` is returned
    match dropWS rem with
    | [] => .ok rem left
    | c0 :: t =>
      if c0 = '+' then
        match rec (.term t) with
        | .timeout => .timeout
        | .fail => .fail
        | .ok ni right => rec (.exprLoop ni (.add left right))
      else if c0 = '-' then
        match rec (.term t) with
        | .timeout => .timeout
        | .fail => .fail
        | .ok ni right => rec (.exprLoop ni (.sub left right))
      else .ok rem left
  | .expr input =>
    -- parse_expression: one term, then the loop
    match rec (.term input) with
    | .timeout => .timeout
    | .fail => .fail
    | .ok rem left => rec (.exprLoop rem left)

/-- The fueled interpreter of the source's mutual recursion: every
recursive call of the source costs one unit of fuel. -/
def runParse : Nat → Call → PRes
  | 0, _ => .timeout
  | f + 1, c => runParseStep (runParse f) c

/-- Fuel that `runParse_no_timeout` proves sufficient for any call. -/
def enoughFuel (s : List Char) : Nat := 6 * s.length + 6

/-- `parse_expression` from `src/lib.rs`: the public entry point. -/
def parse_expression (input : List Char) : PRes :=
  runParse (enoughFuel input) (.expr input)

/-- Convenience: run the parser on a string literal. -/
def parseStr (s : String) : PRes := parse_expression s.toList

/-! ## List helpers -/

theorem takeWhile_append_cons {p : Char → Bool} {l : List Char} (c : Char)
    (r : List Char) (hl : ∀ x ∈ l, p x = true) (hc : p c = false) :
    (l ++ c :: r).takeWhile p = l := by
  induction l with
  | nil => simp [List.takeWhile_cons, hc]
  | cons a t ih =>
    have ha : p a = true := hl a (by simp)
    simp only [List.cons_append, List.takeWhile_cons, ha]
    simp [ih fun x hx => hl x (by simp [hx])]

theorem dropWhile_append_cons {p : Char → Bool} {l : List Char} (c : Char)
    (r : List Char) (hl : ∀ x ∈ l, p x = true) (hc : p c = false) :
    (l ++ c :: r).dropWhile p = c :: r := by
  induction l with
  | nil => simp [List.dropWhile_cons, hc]
  | cons a t ih =>
    have ha : p a = true := hl a (by simp)
    simp only [List.cons_append, List.dropWhile_cons, ha]
    simp [ih fun x hx => hl x (by simp [hx])]

theorem dropWS_cons_not {c : Char} {t : List Char} (hc : isWS c = false) :
    dropWS (c :: t) = c :: t := by
  simp [dropWS, List.dropWhile_cons, hc]

theorem dropWS_suffix (s : List Char) : dropWS s <:+ s :=
  List.dropWhile_suffix _

theorem dropWS_append_not {s : List Char} {c : Char} (t : List Char)
    (hs : s = c :: t) (hc : isWS c = false) (r : List Char) :
    dropWS (s ++ r) = s ++ r := by
  subst hs
  simp [dropWS, List.dropWhile_cons, hc]

/-! ## Facts about the numeric-literal parser -/

theorem parse_number_nil : parse_number [] = none := rfl

/-- A successful literal starts with a sign, a digit or a dot. -/
theorem parse_number_head {s r : List Char} {v : ℚ}
    (h : parse_number s = some (r, v)) :
    ∃ c t, s = c :: t ∧
      (c = '+' ∨ c = '-' ∨ c = '.' ∨ c.isDigit = true) := by
  match s with
  | [] => simp [parse_number, splitSign, parseMantissa] at h
  | c :: t =>
    refine ⟨c, t, rfl, ?_⟩
    by_contra hc
    push_neg at hc
    obtain ⟨h1, h2, h3, h4⟩ := hc
    simp only [ne_eq, Bool.not_eq_true] at h4
    have hsg : splitSign (c :: t) = (1, c :: t) := by
      simp [splitSign, h1, h2]
    simp only [parse_number, hsg] at h
    simp [parseMantissa, h4, h3] at h

/-- The characters a literal can start with are not whitespace, not `(`
and not an operator character the loops dispatch on. -/
theorem litHead_facts {c : Char}
    (h : c = '+' ∨ c = '-' ∨ c = '.' ∨ c.isDigit = true) :
    isWS c = false ∧ c ≠ '(' ∧ c ≠ ')' := by
  rcases h with rfl | rfl | rfl | h
  · exact ⟨by decide, by decide, by decide⟩
  · exact ⟨by decide, by decide, by decide⟩
  · exact ⟨by decide, by decide, by decide⟩
  · refine ⟨?_, ?_, ?_⟩
    · by_contra hb
      rw [Bool.not_eq_false] at hb
      have hcs : ((c = ' ' ∨ c = '\t') ∨ c = '\n') ∨ c = '\r' := by
        simpa [isWS, Bool.or_eq_true, decide_eq_true_eq] using hb
      rcases hcs with ((rfl | rfl) | rfl) | rfl <;> exact absurd h (by decide)
    · rintro rfl; exact absurd h (by decide)
    · rintro rfl; exact absurd h (by decide)

/-- The rest returned by the mantissa parser is a suffix of its input. -/
theorem parseMantissa_suffix {s1 s2 : List Char} {m : ℚ}
    (hm : parseMantissa s1 = some (s2, m)) : s2 <:+ s1 := by
  match s1 with
  | [] => simp [parseMantissa] at hm
  | c :: t =>
    simp only [parseMantissa] at hm
    by_cases hd : c.isDigit = true
    · rw [if_pos hd] at hm
      split at hm
      next u hu =>
        rw [Option.some.injEq, Prod.mk.injEq] at hm
        obtain ⟨rfl, -⟩ := hm
        exact ((List.dropWhile_suffix _).trans
          ((List.suffix_cons '.' u).trans (hu ▸ List.dropWhile_suffix _)))
      next =>
        rw [Option.some.injEq, Prod.mk.injEq] at hm
        obtain ⟨rfl, -⟩ := hm
        exact List.dropWhile_suffix _
    · rw [if_neg hd] at hm
      by_cases hdot : c = '.'
      · rw [if_pos hdot] at hm
        by_cases hfs : t.takeWhile Char.isDigit = []
        · rw [if_pos hfs] at hm
          exact absurd hm (by simp)
        · rw [if_neg hfs, Option.some.injEq, Prod.mk.injEq] at hm
          obtain ⟨rfl, -⟩ := hm
          exact (List.dropWhile_suffix _).trans (List.suffix_cons _ _)
      · rw [if_neg hdot] at hm
        exact absurd hm (by simp)

/-- The sign split of the exponent only drops from the front. -/
theorem splitExpSign_suffix (t : List Char) : (splitExpSign t).2 <:+ t := by
  match t with
  | [] => exact List.suffix_rfl
  | d :: u =>
    simp only [splitExpSign]
    split_ifs <;> first | exact List.suffix_cons d u | exact List.suffix_rfl

/-- Appending does not change how the exponent sign is split (the split
only looks at the first character). -/
theorem splitExpSign_append {t : List Char} (ht : t ≠ []) (x : List Char) :
    splitExpSign (t ++ x) = ((splitExpSign t).1, (splitExpSign t).2 ++ x) := by
  match t with
  | [] => exact absurd rfl ht
  | d :: u =>
    rw [List.cons_append]
    simp only [splitExpSign]
    split_ifs <;> simp

/-- The rest returned by the exponent parser is a suffix of its input. -/
theorem parseExponent_suffix {s2 s3 : List Char} {b : Bool} {n : Nat}
    (he : parseExponent s2 = some (s3, b, n)) : s3 <:+ s2 := by
  match s2 with
  | [] =>
    simp only [parseExponent, Option.some.injEq, Prod.mk.injEq] at he
    obtain ⟨rfl, -⟩ := he
    exact List.suffix_rfl
  | c :: t =>
    simp only [parseExponent] at he
    by_cases hce : c = 'e' ∨ c = 'E'
    · rw [if_pos hce] at he
      by_cases hes : (splitExpSign t).2.takeWhile Char.isDigit = []
      · rw [if_pos hes] at he
        exact absurd he (by simp)
      · rw [if_neg hes, Option.some.injEq, Prod.mk.injEq] at he
        obtain ⟨rfl, -⟩ := he
        exact (List.dropWhile_suffix _).trans
          ((splitExpSign_suffix t).trans (List.suffix_cons _ _))
    · rw [if_neg hce, Option.some.injEq, Prod.mk.injEq] at he
      obtain ⟨rfl, -⟩ := he
      exact List.suffix_rfl

/-- Appending input whose first character fails `p` changes neither the
`takeWhile` part nor the position where `dropWhile` stops. -/
theorem takeWhile_dropWhile_append_blocked (p : Char → Bool) (l : List Char)
    {c : Char} (r : List Char) (hc : p c = false) :
    (l ++ c :: r).takeWhile p = l.takeWhile p ∧
      (l ++ c :: r).dropWhile p = l.dropWhile p ++ c :: r := by
  induction l with
  | nil => simp [List.takeWhile_cons, List.dropWhile_cons, hc]
  | cons a t ih =>
    by_cases ha : p a = true
    · simp [List.takeWhile_cons, List.dropWhile_cons, ha, ih.1, ih.2]
    · rw [Bool.not_eq_true] at ha
      simp [List.takeWhile_cons, List.dropWhile_cons, ha]

/-- When `dropWhile` already stops inside `x`, appending input changes
neither the `takeWhile` part nor the stopping point. -/
theorem takeWhile_dropWhile_append_of_ne (p : Char → Bool) (x j : List Char)
    (h : x.dropWhile p ≠ []) :
    (x ++ j).takeWhile p = x.takeWhile p ∧
      (x ++ j).dropWhile p = x.dropWhile p ++ j := by
  induction x with
  | nil => simp at h
  | cons a t ihx =>
    by_cases hpa : p a = true
    · have h' : t.dropWhile p ≠ [] := by
        simpa [List.dropWhile_cons, hpa] using h
      simp [List.takeWhile_cons, List.dropWhile_cons, hpa, (ihx h').1,
        (ihx h').2]
    · rw [Bool.not_eq_true] at hpa
      simp [List.takeWhile_cons, List.dropWhile_cons, hpa]

/-- When `dropWhile` consumes all of `x`, it continues into the
appended input. -/
theorem dropWhile_append_of_nil (p : Char → Bool) (x j : List Char)
    (h : x.dropWhile p = []) :
    (x ++ j).dropWhile p = j.dropWhile p := by
  induction x with
  | nil => simp
  | cons a t ihx =>
    by_cases hpa : p a = true
    · have h' : t.dropWhile p = [] := by
        simpa [List.dropWhile_cons, hpa] using h
      simp [List.dropWhile_cons, hpa, ihx h']
    · rw [Bool.not_eq_true] at hpa
      rw [List.dropWhile_cons, hpa] at h
      exact absurd h (by simp)

/-- Whitespace stripping distributes over append when it stops inside
the first part. -/
theorem dropWS_append_of_ne {x : List Char} (hne : dropWS x ≠ [])
    (j : List Char) : dropWS (x ++ j) = dropWS x ++ j :=
  (takeWhile_dropWhile_append_of_ne isWS x j hne).2

/-- Whitespace stripping continues into the appended input when the
first part is all whitespace. -/
theorem dropWS_append_of_nil {x : List Char} (h : dropWS x = [])
    (j : List Char) : dropWS (x ++ j) = dropWS j :=
  dropWhile_append_of_nil isWS x j h

/-- Extension: a string that is entirely one numeric literal still
parses to the same value when followed by a character that cannot
continue a literal, with exactly that continuation left over.  This is
the determinism fact that lets the expression parser stop a literal at
an operator or parenthesis boundary. -/
theorem parseMantissa_append {s1 s2 : List Char} {m : ℚ} {c : Char}
    (r : List Char) (hm : parseMantissa s1 = some (s2, m))
    (hcd : c.isDigit = false) (hcdot : c ≠ '.') :
    parseMantissa (s1 ++ c :: r) = some (s2 ++ c :: r, m) := by
  match s1 with
  | [] => simp [parseMantissa] at hm
  | a :: t =>
    have hblock := takeWhile_dropWhile_append_blocked Char.isDigit (a :: t) r hcd
    simp only [parseMantissa] at hm
    rw [List.cons_append]
    simp only [parseMantissa]
    by_cases ha : a.isDigit = true
    · rw [if_pos ha] at hm
      rw [if_pos ha, ← List.cons_append, hblock.1, hblock.2]
      split at hm
      next u hu =>
        rw [Option.some.injEq, Prod.mk.injEq] at hm
        obtain ⟨rfl, rfl⟩ := hm
        rw [hu, List.cons_append]
        have hub := takeWhile_dropWhile_append_blocked Char.isDigit u r hcd
        simp [hub.1, hub.2]
      next hnodot =>
        rw [Option.some.injEq, Prod.mk.injEq] at hm
        obtain ⟨rfl, rfl⟩ := hm
        split
        next u2 heq =>
          exfalso
          match hs2 : (a :: t).dropWhile Char.isDigit with
          | [] =>
            rw [hs2, List.nil_append] at heq
            injection heq with hc1 hc2
            exact hcdot hc1
          | b :: u3 =>
            rw [hs2, List.cons_append] at heq
            injection heq with hb hrest
            exact hnodot u3 (by rw [hs2, hb])
        next => rfl
    · rw [if_neg ha] at hm
      rw [if_neg ha]
      by_cases hadot : a = '.'
      · rw [if_pos hadot] at hm
        rw [if_pos hadot]
        by_cases hfs : t.takeWhile Char.isDigit = []
        · rw [if_pos hfs] at hm
          exact absurd hm (by simp)
        · have htb := takeWhile_dropWhile_append_blocked Char.isDigit t r hcd
          rw [htb.1, htb.2, if_neg hfs]
          rw [if_neg hfs, Option.some.injEq, Prod.mk.injEq] at hm
          obtain ⟨rfl, rfl⟩ := hm
          rfl
      · rw [if_neg hadot] at hm
        exact absurd hm (by simp)

/-- Extension for the exponent step: when the exponent parser consumed
its whole input, a following character that is neither a digit nor
`e`/`E` is left unconsumed and the value is unchanged. -/
theorem parseExponent_append {s2 : List Char} {b : Bool} {n : Nat} {c : Char}
    (r : List Char) (he : parseExponent s2 = some ([], b, n))
    (hcd : c.isDigit = false) (hce : c ≠ 'e') (hcE : c ≠ 'E') :
    parseExponent (s2 ++ c :: r) = some (c :: r, b, n) := by
  match s2 with
  | [] =>
    simp only [parseExponent, Option.some.injEq, Prod.mk.injEq, true_and] at he
    obtain ⟨rfl, rfl⟩ := he
    rw [List.nil_append, parseExponent]
    rw [if_neg (by rintro (rfl | rfl) <;> simp_all)]
  | a :: t =>
    simp only [parseExponent] at he
    by_cases hae : a = 'e' ∨ a = 'E'
    · rw [if_pos hae] at he
      rw [List.cons_append, parseExponent, if_pos hae]
      by_cases hes : (splitExpSign t).2.takeWhile Char.isDigit = []
      · rw [if_pos hes] at he
        exact absurd he (by simp)
      · rw [if_neg hes, Option.some.injEq, Prod.mk.injEq] at he
        obtain ⟨hdrop, rfl, rfl⟩ := he
        have ht : t ≠ [] := by
          rintro rfl
          simp [splitExpSign] at hes
        rw [splitExpSign_append ht (c :: r)]
        have hub := takeWhile_dropWhile_append_blocked Char.isDigit
          (splitExpSign t).2 r hcd
        simp only [hub.1, hub.2, hdrop, List.nil_append, if_neg hes]
    · rw [if_neg hae] at he
      exact absurd he (by simp)

/-- A string that is entirely one numeric literal, followed by a
character that cannot continue a literal, parses to the same value with
exactly the continuation left over. -/
theorem parse_number_append {s : List Char} {v : ℚ} {c : Char}
    (r : List Char) (h : parse_number s = some ([], v))
    (hcd : c.isDigit = false) (hcdot : c ≠ '.')
    (hce : c ≠ 'e') (hcE : c ≠ 'E') :
    parse_number (s ++ c :: r) = some (c :: r, v) := by
  obtain ⟨a, t, rfl, -⟩ := parse_number_head h
  have hsg : splitSign (a :: t ++ c :: r)
      = ((splitSign (a :: t)).1, (splitSign (a :: t)).2 ++ c :: r) := by
    rw [List.cons_append]
    simp only [splitSign]
    split_ifs <;> simp
  simp only [parse_number] at h ⊢
  split at h
  · exact absurd h (by simp)
  next s2 m hm =>
    split at h
    · exact absurd h (by simp)
    next s3 b n he =>
      rw [Option.some.injEq, Prod.mk.injEq] at h
      obtain ⟨rfl, rfl⟩ := h
      simp only [hsg, parseMantissa_append r hm hcd hcdot,
        parseExponent_append r he hcd hce hcE]

/-- Internal extension for the mantissa: when the mantissa already
stopped strictly inside its input, appending anything changes nothing
but carries the appended text into the rest. -/
theorem parseMantissa_append_internal {s1 s2 : List Char} {m : ℚ}
    (j : List Char) (hm : parseMantissa s1 = some (s2, m)) (hne : s2 ≠ []) :
    parseMantissa (s1 ++ j) = some (s2 ++ j, m) := by
  match s1 with
  | [] => simp [parseMantissa] at hm
  | a :: t =>
    simp only [parseMantissa] at hm
    rw [List.cons_append]
    simp only [parseMantissa]
    by_cases ha : a.isDigit = true
    · rw [if_pos ha] at hm
      rw [if_pos ha]
      have hdig : (a :: t).dropWhile Char.isDigit ≠ [] := by
        intro h0
        rw [h0] at hm
        rw [Option.some.injEq, Prod.mk.injEq] at hm
        obtain ⟨h2, -⟩ := hm
        exact hne h2.symm
      have hblk := takeWhile_dropWhile_append_of_ne Char.isDigit (a :: t) j hdig
      rw [← List.cons_append, hblk.1, hblk.2]
      split at hm
      next u hu =>
        rw [Option.some.injEq, Prod.mk.injEq] at hm
        obtain ⟨rfl, rfl⟩ := hm
        rw [hu, List.cons_append]
        have hub := takeWhile_dropWhile_append_of_ne Char.isDigit u j hne
        simp [hub.1, hub.2]
      next hnodot =>
        rw [Option.some.injEq, Prod.mk.injEq] at hm
        obtain ⟨rfl, rfl⟩ := hm
        split
        next u2 heq =>
          exfalso
          match hs2 : (a :: t).dropWhile Char.isDigit with
          | [] => exact hdig hs2
          | b :: u3 =>
            rw [hs2, List.cons_append] at heq
            injection heq with hb hrest
            exact hnodot u3 (by rw [hs2, hb])
        next => rfl
    · rw [if_neg ha] at hm
      rw [if_neg ha]
      by_cases hadot : a = '.'
      · rw [if_pos hadot] at hm
        rw [if_pos hadot]
        by_cases hfs : t.takeWhile Char.isDigit = []
        · rw [if_pos hfs] at hm
          exact absurd hm (by simp)
        · rw [if_neg hfs, Option.some.injEq, Prod.mk.injEq] at hm
          obtain ⟨rfl, rfl⟩ := hm
          have htb := takeWhile_dropWhile_append_of_ne Char.isDigit t j hne
          rw [htb.1, htb.2, if_neg hfs]
      · rw [if_neg hadot] at hm
        exact absurd hm (by simp)

/-- Internal extension for the exponent: when the exponent parser
stopped strictly inside its input, appending anything only carries the
appended text into the rest. -/
theorem parseExponent_append_internal {s2 s3 : List Char} {b : Bool} {n : Nat}
    (j : List Char) (he : parseExponent s2 = some (s3, b, n)) (hne : s3 ≠ []) :
    parseExponent (s2 ++ j) = some (s3 ++ j, b, n) := by
  match s2 with
  | [] =>
    simp only [parseExponent, Option.some.injEq, Prod.mk.injEq] at he
    obtain ⟨rfl, -⟩ := he
    exact absurd rfl hne
  | a :: t =>
    simp only [parseExponent] at he
    by_cases hae : a = 'e' ∨ a = 'E'
    · rw [if_pos hae] at he
      by_cases hes : (splitExpSign t).2.takeWhile Char.isDigit = []
      · rw [if_pos hes] at he
        exact absurd he (by simp)
      · rw [if_neg hes] at he
        simp only [Option.some.injEq, Prod.mk.injEq] at he
        obtain ⟨rfl, rfl, rfl⟩ := he
        have ht : t ≠ [] := by
          rintro rfl
          simp [splitExpSign] at hes
        rw [List.cons_append]
        simp only [parseExponent, if_pos hae]
        rw [splitExpSign_append ht j]
        have hub := takeWhile_dropWhile_append_of_ne Char.isDigit
          (splitExpSign t).2 j hne
        simp only [hub.1, hub.2, if_neg hes]
    · rw [if_neg hae] at he
      simp only [Option.some.injEq, Prod.mk.injEq] at he
      obtain ⟨rfl, rfl, rfl⟩ := he
      rw [List.cons_append]
      simp only [parseExponent, if_neg hae]

/-- Internal extension for whole literals: a literal that stopped
strictly inside its input parses identically with anything appended,
the appended text joining the unconsumed rest. -/
theorem parse_number_append_internal {s rest : List Char} {v : ℚ}
    (j : List Char) (h : parse_number s = some (rest, v)) (hne : rest ≠ []) :
    parse_number (s ++ j) = some (rest ++ j, v) := by
  obtain ⟨a, t, rfl, -⟩ := parse_number_head h
  have hsg : splitSign (a :: t ++ j)
      = ((splitSign (a :: t)).1, (splitSign (a :: t)).2 ++ j) := by
    rw [List.cons_append]
    simp only [splitSign]
    split_ifs <;> simp
  simp only [parse_number] at h ⊢
  split at h
  · exact absurd h (by simp)
  next s2 m hm =>
    split at h
    · exact absurd h (by simp)
    next s3 b n he =>
      rw [Option.some.injEq, Prod.mk.injEq] at h
      obtain ⟨rfl, rfl⟩ := h
      have hs2ne : s2 ≠ [] := by
        rintro rfl
        simp only [parseExponent, Option.some.injEq, Prod.mk.injEq] at he
        obtain ⟨h1, -⟩ := he
        exact hne h1.symm
      simp only [hsg, parseMantissa_append_internal j hm hs2ne,
        parseExponent_append_internal j he hne]

/-- The rest returned by the literal parser is a suffix of its input. -/
theorem parse_number_suffix {s r : List Char} {v : ℚ}
    (h : parse_number s = some (r, v)) : r <:+ s := by
  have hsg : (splitSign s).2 <:+ s := by
    match s with
    | [] => exact List.suffix_rfl
    | c :: t =>
      simp only [splitSign]
      split_ifs <;> first | exact List.suffix_cons c t | exact List.suffix_rfl
  simp only [parse_number] at h
  split at h
  · exact absurd h (by simp)
  next s2 m hm =>
    split at h
    · exact absurd h (by simp)
    next s3 b n he =>
      rw [Option.some.injEq, Prod.mk.injEq] at h
      obtain ⟨rfl, -⟩ := h
      exact ((parseExponent_suffix he).trans (parseMantissa_suffix hm)).trans hsg

/-! ## Metatheory of the fueled parser -/

/-- The input position a parser call starts from. -/
def callInput : Call → List Char
  | .paren s => s
  | .factor s => s
  | .termLoop s _ => s
  | .term s => s
  | .exprLoop s _ => s
  | .expr s => s

/-- Position of a parser function in the call graph (used only to
order the fuel bound below). -/
def callIdx : Call → Nat
  | .paren _ => 0
  | .factor _ => 1
  | .termLoop _ _ => 2
  | .term _ => 3
  | .exprLoop _ _ => 4
  | .expr _ => 5

/-- A successful parse leaves a suffix of its input unconsumed: the
parser only ever consumes from the front. -/
theorem runParse_ok_suffix (f : Nat) :
    ∀ (c : Call) (r : List Char) (e : Expr),
      runParse f c = .ok r e → r <:+ callInput c := by
  induction f with
  | zero =>
    intro c r e h
    exact PRes.noConfusion h
  | succ f ih =>
    intro c r e h
    match c with
    | .paren input =>
      simp only [runParse, runParseStep, callInput] at h ⊢
      split at h
      · exact PRes.noConfusion h
      next c0 t =>
        by_cases hp : c0 = '('
        · rw [if_pos hp] at h
          split at h
          · exact PRes.noConfusion h
          · exact PRes.noConfusion h
          next rest e1 hexpr =>
            split at h
            · exact PRes.noConfusion h
            next c1 r2 =>
              by_cases hc1 : c1 = ')'
              · rw [if_pos hc1] at h
                injection h with h1 h2
                subst h1
                have hs : c1 :: r2 <:+ t :=
                  ih (.expr t) (c1 :: r2) e1 hexpr
                exact ((List.suffix_cons c1 r2).trans hs).trans
                  (List.suffix_cons c0 t)
              · rw [if_neg hc1] at h
                exact PRes.noConfusion h
        · rw [if_neg hp] at h
          exact PRes.noConfusion h
    | .factor input =>
      simp only [runParse, runParseStep, callInput] at h ⊢
      split at h
      · exact PRes.noConfusion h
      next rest e1 hparen =>
        injection h with h1 h2
        subst h1
        exact (ih (.paren (dropWS input)) rest e1 hparen).trans (dropWS_suffix input)
      next hparen =>
        split at h
        next rest v hnum =>
          injection h with h1 h2
          subst h1
          exact (parse_number_suffix hnum).trans (dropWS_suffix input)
        next => exact PRes.noConfusion h
    | .termLoop rem left =>
      simp only [runParse, runParseStep, callInput] at h ⊢
      split at h
      next hws =>
        injection h with h1 h2
        subst h1
        exact List.suffix_rfl
      next c0 t hws =>
        by_cases hmul : c0 = '*'
        · rw [if_pos hmul] at h
          split at h
          · exact PRes.noConfusion h
          · exact PRes.noConfusion h
          next ni right hfac =>
            have h1 := ih (.termLoop ni (.mul left right)) r e h
            have h2 := ih (.factor t) ni right hfac
            have h3 : (t : List Char) <:+ dropWS rem :=
              hws ▸ List.suffix_cons c0 t
            exact ((h1.trans h2).trans h3).trans (dropWS_suffix rem)
        · by_cases hdiv : c0 = '/'
          · rw [if_neg hmul, if_pos hdiv] at h
            split at h
            · exact PRes.noConfusion h
            · exact PRes.noConfusion h
            next ni right hfac =>
              have h1 := ih (.termLoop ni (.div left right)) r e h
              have h2 := ih (.factor t) ni right hfac
              have h3 : (t : List Char) <:+ dropWS rem :=
                hws ▸ List.suffix_cons c0 t
              exact ((h1.trans h2).trans h3).trans (dropWS_suffix rem)
          · rw [if_neg hmul, if_neg hdiv] at h
            injection h with h1 h2
            subst h1
            exact List.suffix_rfl
    | .term input =>
      simp only [runParse, runParseStep, callInput] at h ⊢
      split at h
      · exact PRes.noConfusion h
      · exact PRes.noConfusion h
      next rem left hfac =>
        have h1 := ih (.termLoop rem left) r e h
        have h2 := ih (.factor input) rem left hfac
        exact h1.trans h2
    | .exprLoop rem left =>
      simp only [runParse, runParseStep, callInput] at h ⊢
      split at h
      next hws =>
        injection h with h1 h2
        subst h1
        exact List.suffix_rfl
      next c0 t hws =>
        by_cases hadd : c0 = '+'
        · rw [if_pos hadd] at h
          split at h
          · exact PRes.noConfusion h
          · exact PRes.noConfusion h
          next ni right hterm =>
            have h1 := ih (.exprLoop ni (.add left right)) r e h
            have h2 := ih (.term t) ni right hterm
            have h3 : (t : List Char) <:+ dropWS rem :=
              hws ▸ List.suffix_cons c0 t
            exact ((h1.trans h2).trans h3).trans (dropWS_suffix rem)
        · by_cases hsub : c0 = '-'
          · rw [if_neg hadd, if_pos hsub] at h
            split at h
            · exact PRes.noConfusion h
            · exact PRes.noConfusion h
            next ni right hterm =>
              have h1 := ih (.exprLoop ni (.sub left right)) r e h
              have h2 := ih (.term t) ni right hterm
              have h3 : (t : List Char) <:+ dropWS rem :=
                hws ▸ List.suffix_cons c0 t
              exact ((h1.trans h2).trans h3).trans (dropWS_suffix rem)
          · rw [if_neg hadd, if_neg hsub] at h
            injection h with h1 h2
            subst h1
            exact List.suffix_rfl
    | .expr input =>
      simp only [runParse, runParseStep, callInput] at h ⊢
      split at h
      · exact PRes.noConfusion h
      · exact PRes.noConfusion h
      next rem left hterm =>
        have h1 := ih (.exprLoop rem left) r e h
        have h2 := ih (.term input) rem left hterm
        exact h1.trans h2

/-- The step functional only consumes its recursive-call argument at
non-timeout points when the overall step result is not a timeout, so
two recursion functions agreeing off timeouts give equal steps. -/
theorem runParseStep_congr (rec1 rec2 : Call → PRes)
    (hrec : ∀ c, rec2 c ≠ .timeout → rec1 c = rec2 c) :
    ∀ c, runParseStep rec2 c ≠ .timeout →
      runParseStep rec1 c = runParseStep rec2 c := by
  intro c h
  match c with
  | .paren input =>
    match input with
    | [] => rfl
    | c0 :: t =>
      by_cases hp : c0 = '('
      · have hsub : rec2 (.expr t) ≠ .timeout := by
          intro hto; apply h
          simp only [runParseStep, if_pos hp, hto]
        simp only [runParseStep, if_pos hp, hrec (.expr t) hsub]
      · simp only [runParseStep, if_neg hp]
  | .factor input =>
    have hsub : rec2 (.paren (dropWS input)) ≠ .timeout := by
      intro hto; apply h
      simp only [runParseStep, hto]
    simp only [runParseStep, hrec (.paren (dropWS input)) hsub]
  | .termLoop rem left =>
    match hws : dropWS rem with
    | [] => simp only [runParseStep, hws]
    | c0 :: t =>
      by_cases hmul : c0 = '*'
      · have hfac : rec2 (.factor t) ≠ .timeout := by
          intro hto; apply h
          simp only [runParseStep, hws, if_pos hmul, hto]
        match hv : rec2 (.factor t) with
        | .timeout => exact absurd hv hfac
        | .fail =>
          simp only [runParseStep, hws, if_pos hmul, hrec (.factor t) hfac, hv]
        | .ok ni right =>
          have hloop : rec2 (.termLoop ni (.mul left right)) ≠ .timeout := by
            intro hto; apply h
            simp only [runParseStep, hws, if_pos hmul, hv, hto]
          simp only [runParseStep, hws, if_pos hmul, hrec (.factor t) hfac, hv,
            hrec (.termLoop ni (.mul left right)) hloop]
      · by_cases hdiv : c0 = '/'
        · have hfac : rec2 (.factor t) ≠ .timeout := by
            intro hto; apply h
            simp only [runParseStep, hws, if_neg hmul, if_pos hdiv, hto]
          match hv : rec2 (.factor t) with
          | .timeout => exact absurd hv hfac
          | .fail =>
            simp only [runParseStep, hws, if_neg hmul, if_pos hdiv,
              hrec (.factor t) hfac, hv]
          | .ok ni right =>
            have hloop : rec2 (.termLoop ni (.div left right)) ≠ .timeout := by
              intro hto; apply h
              simp only [runParseStep, hws, if_neg hmul, if_pos hdiv, hv, hto]
            simp only [runParseStep, hws, if_neg hmul, if_pos hdiv,
              hrec (.factor t) hfac, hv,
              hrec (.termLoop ni (.div left right)) hloop]
        · simp only [runParseStep, hws, if_neg hmul, if_neg hdiv]
  | .term input =>
    have hfac : rec2 (.factor input) ≠ .timeout := by
      intro hto; apply h
      simp only [runParseStep, hto]
    match hv : rec2 (.factor input) with
    | .timeout => exact absurd hv hfac
    | .fail => simp only [runParseStep, hrec (.factor input) hfac, hv]
    | .ok rem left =>
      have hloop : rec2 (.termLoop rem left) ≠ .timeout := by
        intro hto; apply h
        simp only [runParseStep, hv, hto]
      simp only [runParseStep, hrec (.factor input) hfac, hv,
        hrec (.termLoop rem left) hloop]
  | .exprLoop rem left =>
    match hws : dropWS rem with
    | [] => simp only [runParseStep, hws]
    | c0 :: t =>
      by_cases hadd : c0 = '+'
      · have hterm : rec2 (.term t) ≠ .timeout := by
          intro hto; apply h
          simp only [runParseStep, hws, if_pos hadd, hto]
        match hv : rec2 (.term t) with
        | .timeout => exact absurd hv hterm
        | .fail =>
          simp only [runParseStep, hws, if_pos hadd, hrec (.term t) hterm, hv]
        | .ok ni right =>
          have hloop : rec2 (.exprLoop ni (.add left right)) ≠ .timeout := by
            intro hto; apply h
            simp only [runParseStep, hws, if_pos hadd, hv, hto]
          simp only [runParseStep, hws, if_pos hadd, hrec (.term t) hterm, hv,
            hrec (.exprLoop ni (.add left right)) hloop]
      · by_cases hneg : c0 = '-'
        · have hterm : rec2 (.term t) ≠ .timeout := by
            intro hto; apply h
            simp only [runParseStep, hws, if_neg hadd, if_pos hneg, hto]
          match hv : rec2 (.term t) with
          | .timeout => exact absurd hv hterm
          | .fail =>
            simp only [runParseStep, hws, if_neg hadd, if_pos hneg,
              hrec (.term t) hterm, hv]
          | .ok ni right =>
            have hloop : rec2 (.exprLoop ni (.sub left right)) ≠ .timeout := by
              intro hto; apply h
              simp only [runParseStep, hws, if_neg hadd, if_pos hneg, hv, hto]
            simp only [runParseStep, hws, if_neg hadd, if_pos hneg,
              hrec (.term t) hterm, hv,
              hrec (.exprLoop ni (.sub left right)) hloop]
        · simp only [runParseStep, hws, if_neg hadd, if_neg hneg]
  | .expr input =>
    have hterm : rec2 (.term input) ≠ .timeout := by
      intro hto; apply h
      simp only [runParseStep, hto]
    match hv : rec2 (.term input) with
    | .timeout => exact absurd hv hterm
    | .fail => simp only [runParseStep, hrec (.term input) hterm, hv]
    | .ok rem left =>
      have hloop : rec2 (.exprLoop rem left) ≠ .timeout := by
        intro hto; apply h
        simp only [runParseStep, hv, hto]
      simp only [runParseStep, hrec (.term input) hterm, hv,
        hrec (.exprLoop rem left) hloop]

/-- Adding fuel does not change a result that is not a timeout. -/
theorem runParse_mono_succ (f : Nat) :
    ∀ c, runParse f c ≠ .timeout → runParse (f + 1) c = runParse f c := by
  induction f with
  | zero => intro c h; exact absurd rfl h
  | succ f ih =>
    intro c h
    exact runParseStep_congr (runParse (f + 1)) (runParse f) ih c h

/-- Any amount of additional fuel preserves a non-timeout result. -/
theorem runParse_mono {f g : Nat} (c : Call) (hfg : f ≤ g)
    (h : runParse f c ≠ .timeout) : runParse g c = runParse f c := by
  induction hfg with
  | refl => rfl
  | step hg ihg =>
    rename_i g'
    have hg' : runParse g' c ≠ .timeout := by
      intro hto
      rw [ihg] at hto
      exact h hto
    rw [runParse_mono_succ g' c hg', ihg]

/-- Success is preserved by adding fuel. -/
theorem runParse_ok_mono {f g : Nat} {c : Call} {r : List Char} {e : Expr}
    (h : runParse f c = .ok r e) (hfg : f ≤ g) : runParse g c = .ok r e := by
  rw [runParse_mono c hfg (by rw [h]; exact fun hx => PRes.noConfusion hx)]
  exact h

/-- Failure is preserved by adding fuel. -/
theorem runParse_fail_mono {f g : Nat} {c : Call}
    (h : runParse f c = .fail) (hfg : f ≤ g) : runParse g c = .fail := by
  rw [runParse_mono c hfg (by rw [h]; exact fun hx => PRes.noConfusion hx)]
  exact h

/-- A timeout of one step can always be blamed on the timeout of a
recursive call that is strictly smaller in the termination measure
`6 * input length + call index`. -/
theorem runParseStep_timeout_blame (rec : Call → PRes)
    (hsuf : ∀ c r e, rec c = .ok r e → r <:+ callInput c) :
    ∀ c, runParseStep rec c = .timeout →
      ∃ c', rec c' = .timeout ∧
        6 * (callInput c').length + callIdx c'
          < 6 * (callInput c).length + callIdx c := by
  intro c h
  match c with
  | .paren input =>
    match input with
    | [] => exact absurd h (by simp [runParseStep])
    | c0 :: t =>
      by_cases hp : c0 = '('
      · simp only [runParseStep, if_pos hp] at h
        refine ⟨.expr t, ?_, ?_⟩
        · match hv : rec (.expr t) with
          | .timeout => rfl
          | .fail => simp [hv] at h
          | .ok rest e =>
            simp only [hv] at h
            exfalso
            split at h
            · exact PRes.noConfusion h
            next c1 r2 =>
              by_cases hc1 : c1 = ')'
              · rw [if_pos hc1] at h; exact PRes.noConfusion h
              · rw [if_neg hc1] at h; exact PRes.noConfusion h
        · simp only [callInput, callIdx, List.length_cons]
          omega
      · simp only [runParseStep, if_neg hp] at h
        exact PRes.noConfusion h
  | .factor input =>
    simp only [runParseStep] at h
    refine ⟨.paren (dropWS input), ?_, ?_⟩
    · match hv : rec (.paren (dropWS input)) with
      | .timeout => rfl
      | .ok rest e => simp [hv] at h
      | .fail =>
        simp only [hv] at h
        exfalso
        split at h <;> exact PRes.noConfusion h
    · have hle : (dropWS input).length ≤ input.length :=
        (dropWS_suffix input).length_le
      simp only [callInput, callIdx]
      omega
  | .termLoop rem left =>
    simp only [runParseStep] at h
    match hws : dropWS rem with
    | [] => simp [hws] at h
    | c0 :: t =>
      simp only [hws] at h
      have hlen : t.length + 1 ≤ rem.length := by
        have := (dropWS_suffix rem).length_le
        rw [hws] at this
        simpa using this
      by_cases hmul : c0 = '*'
      · rw [if_pos hmul] at h
        match hv : rec (.factor t) with
        | .timeout =>
          exact ⟨.factor t, hv, by simp only [callInput, callIdx]; omega⟩
        | .fail => simp [hv] at h
        | .ok ni right =>
          simp only [hv] at h
          have hni : ni.length ≤ t.length := (hsuf _ _ _ hv).length_le
          exact ⟨.termLoop ni (.mul left right), h,
            by simp only [callInput, callIdx]; omega⟩
      · by_cases hdiv : c0 = '/'
        · rw [if_neg hmul, if_pos hdiv] at h
          match hv : rec (.factor t) with
          | .timeout =>
            exact ⟨.factor t, hv, by simp only [callInput, callIdx]; omega⟩
          | .fail => simp [hv] at h
          | .ok ni right =>
            simp only [hv] at h
            have hni : ni.length ≤ t.length := (hsuf _ _ _ hv).length_le
            exact ⟨.termLoop ni (.div left right), h,
              by simp only [callInput, callIdx]; omega⟩
        · rw [if_neg hmul, if_neg hdiv] at h
          exact PRes.noConfusion h
  | .term input =>
    simp only [runParseStep] at h
    match hv : rec (.factor input) with
    | .timeout =>
      exact ⟨.factor input, hv, by simp only [callInput, callIdx]; omega⟩
    | .fail => simp [hv] at h
    | .ok rem left =>
      simp only [hv] at h
      have hrem : rem.length ≤ input.length := (hsuf _ _ _ hv).length_le
      exact ⟨.termLoop rem left, h, by simp only [callInput, callIdx]; omega⟩
  | .exprLoop rem left =>
    simp only [runParseStep] at h
    match hws : dropWS rem with
    | [] => simp [hws] at h
    | c0 :: t =>
      simp only [hws] at h
      have hlen : t.length + 1 ≤ rem.length := by
        have := (dropWS_suffix rem).length_le
        rw [hws] at this
        simpa using this
      by_cases hadd : c0 = '+'
      · rw [if_pos hadd] at h
        match hv : rec (.term t) with
        | .timeout =>
          exact ⟨.term t, hv, by simp only [callInput, callIdx]; omega⟩
        | .fail => simp [hv] at h
        | .ok ni right =>
          simp only [hv] at h
          have hni : ni.length ≤ t.length := (hsuf _ _ _ hv).length_le
          exact ⟨.exprLoop ni (.add left right), h,
            by simp only [callInput, callIdx]; omega⟩
      · by_cases hneg : c0 = '-'
        · rw [if_neg hadd, if_pos hneg] at h
          match hv : rec (.term t) with
          | .timeout =>
            exact ⟨.term t, hv, by simp only [callInput, callIdx]; omega⟩
          | .fail => simp [hv] at h
          | .ok ni right =>
            simp only [hv] at h
            have hni : ni.length ≤ t.length := (hsuf _ _ _ hv).length_le
            exact ⟨.exprLoop ni (.sub left right), h,
              by simp only [callInput, callIdx]; omega⟩
        · rw [if_neg hadd, if_neg hneg] at h
          exact PRes.noConfusion h
  | .expr input =>
    simp only [runParseStep] at h
    match hv : rec (.term input) with
    | .timeout =>
      exact ⟨.term input, hv, by simp only [callInput, callIdx]; omega⟩
    | .fail => simp [hv] at h
    | .ok rem left =>
      simp only [hv] at h
      have hrem : rem.length ≤ input.length := (hsuf _ _ _ hv).length_le
      exact ⟨.exprLoop rem left, h, by simp only [callInput, callIdx]; omega⟩


/-- Fuel sufficiency: with fuel above `6 * input length + call index`,
the fueled interpreter never times out — i.e. the source's recursion
terminates on every input. -/
theorem runParse_no_timeout (f : Nat) :
    ∀ c, 6 * (callInput c).length + callIdx c < f →
      runParse f c ≠ .timeout := by
  induction f with
  | zero => intro c h; exact absurd h (Nat.not_lt_zero _)
  | succ f ih =>
    intro c hf hto
    obtain ⟨c', hc', hlt⟩ :=
      runParseStep_timeout_blame (runParse f) (runParse_ok_suffix f) c hto
    exact ih c' (by omega) hc'

/-- The public entry point always runs to completion: it returns a
parse or a failure, never the fuel marker. -/
theorem parse_expression_no_timeout (input : List Char) :
    parse_expression input ≠ .timeout := by
  apply runParse_no_timeout
  simp only [callInput, callIdx, enoughFuel]
  omega

/-! ## Wrappers with sufficient fuel for each parser function -/

/-- `parse_parenthesized` from `src/lib.rs`. -/
def parse_parenthesized (s : List Char) : PRes :=
  runParse (enoughFuel s) (.paren s)

/-- `parse_factor` from `src/lib.rs`. -/
def parse_factor (s : List Char) : PRes :=
  runParse (enoughFuel s) (.factor s)

/-- `parse_term` from `src/lib.rs`. -/
def parse_term (s : List Char) : PRes :=
  runParse (enoughFuel s) (.term s)

/-! ## Stepping lemmas: how each level consumes symbolic input -/

/-- Dropping whitespace ignores a leading whitespace character. -/
theorem dropWS_cons_ws {c : Char} (t : List Char) (hc : isWS c = true) :
    dropWS (c :: t) = dropWS t := by
  simp [dropWS, List.dropWhile_cons, hc]

/-- A factor over input whose whitespace-stripped form is a numeric
literal: the parenthesis attempt fails and the literal is taken. -/
theorem runParse_factor_lit (f : Nat) {i s rest : List Char} {v : ℚ}
    (hdrop : dropWS i = s) (h : parse_number s = some (rest, v)) :
    runParse (f + 2) (.factor i) = .ok rest (.float v) := by
  obtain ⟨c, t, hs, hc⟩ := parse_number_head h
  obtain ⟨-, hpar, -⟩ := litHead_facts hc
  have hp : runParse (f + 1) (.paren s) = .fail := by
    show runParseStep (runParse f) (.paren s) = .fail
    rw [hs]
    simp [runParseStep, if_neg hpar]
  show runParseStep (runParse (f + 1)) (.factor i) = .ok rest (.float v)
  simp only [runParseStep, hdrop, hp, h]

/-- A factor whose parenthesized attempt (at the whitespace-stripped
position) succeeds returns that result. -/
theorem runParse_factor_paren (f : Nat) {i s rest : List Char} {e : Expr}
    (hdrop : dropWS i = s) (hpar : runParse f (.paren s) = .ok rest e) :
    runParse (f + 1) (.factor i) = .ok rest e := by
  show runParseStep (runParse f) (.factor i) = .ok rest e
  rw [runParseStep, hdrop, hpar]

/-- `parse_parenthesized` on `'(' :: t`: parse the inner expression,
then require `')'` as the literal next character. -/
theorem runParse_paren_comp (f : Nat) {t r : List Char} {e : Expr}
    (hexpr : runParse f (.expr t) = .ok (')' :: r) e) :
    runParse (f + 1) (.paren ('(' :: t)) = .ok r e := by
  show runParseStep (runParse f) (.paren ('(' :: t)) = .ok r e
  simp [runParseStep, hexpr]

/-- The `*`/`/` loop breaks, without consuming the whitespace it
skipped, when the input is exhausted. -/
theorem runParse_termLoop_break_nil (f : Nat) {rem : List Char} (left : Expr)
    (hws : dropWS rem = []) :
    runParse (f + 1) (.termLoop rem left) = .ok rem left := by
  show runParseStep (runParse f) (.termLoop rem left) = .ok rem left
  simp [runParseStep, hws]

/-- The `*`/`/` loop breaks when the next non-whitespace character is
neither `*` nor `/`. -/
theorem runParse_termLoop_break_cons (f : Nat) {rem t : List Char}
    {c0 : Char} (left : Expr) (hws : dropWS rem = c0 :: t)
    (h1 : c0 ≠ '*') (h2 : c0 ≠ '/') :
    runParse (f + 1) (.termLoop rem left) = .ok rem left := by
  show runParseStep (runParse f) (.termLoop rem left) = .ok rem left
  simp [runParseStep, hws, if_neg h1, if_neg h2]

/-- One `*` iteration of the term loop. -/
theorem runParse_termLoop_mul (f : Nat) {rem t ni r : List Char}
    {left right e : Expr} (hws : dropWS rem = '*' :: t)
    (hfac : runParse f (.factor t) = .ok ni right)
    (hloop : runParse f (.termLoop ni (.mul left right)) = .ok r e) :
    runParse (f + 1) (.termLoop rem left) = .ok r e := by
  show runParseStep (runParse f) (.termLoop rem left) = .ok r e
  simp [runParseStep, hws, hfac, hloop]

/-- One `/` iteration of the term loop. -/
theorem runParse_termLoop_div (f : Nat) {rem t ni r : List Char}
    {left right e : Expr} (hws : dropWS rem = '/' :: t)
    (hfac : runParse f (.factor t) = .ok ni right)
    (hloop : runParse f (.termLoop ni (.div left right)) = .ok r e) :
    runParse (f + 1) (.termLoop rem left) = .ok r e := by
  show runParseStep (runParse f) (.termLoop rem left) = .ok r e
  simp [runParseStep, hws, hfac, hloop]

/-- `parse_term`: one factor, then the `*`/`/` loop. -/
theorem runParse_term_comp (f : Nat) {s rem r : List Char} {left e : Expr}
    (hfac : runParse f (.factor s) = .ok rem left)
    (hloop : runParse f (.termLoop rem left) = .ok r e) :
    runParse (f + 1) (.term s) = .ok r e := by
  show runParseStep (runParse f) (.term s) = .ok r e
  simp [runParseStep, hfac, hloop]

/-- The `+`/`-` loop breaks when the input is exhausted. -/
theorem runParse_exprLoop_break_nil (f : Nat) {rem : List Char} (left : Expr)
    (hws : dropWS rem = []) :
    runParse (f + 1) (.exprLoop rem left) = .ok rem left := by
  show runParseStep (runParse f) (.exprLoop rem left) = .ok rem left
  simp [runParseStep, hws]

/-- The `+`/`-` loop breaks when the next non-whitespace character is
neither `+` nor `-`. -/
theorem runParse_exprLoop_break_cons (f : Nat) {rem t : List Char}
    {c0 : Char} (left : Expr) (hws : dropWS rem = c0 :: t)
    (h1 : c0 ≠ '+') (h2 : c0 ≠ '-') :
    runParse (f + 1) (.exprLoop rem left) = .ok rem left := by
  show runParseStep (runParse f) (.exprLoop rem left) = .ok rem left
  simp [runParseStep, hws, if_neg h1, if_neg h2]

/-- One `+` iteration of the expression loop. -/
theorem runParse_exprLoop_add (f : Nat) {rem t ni r : List Char}
    {left right e : Expr} (hws : dropWS rem = '+' :: t)
    (hterm : runParse f (.term t) = .ok ni right)
    (hloop : runParse f (.exprLoop ni (.add left right)) = .ok r e) :
    runParse (f + 1) (.exprLoop rem left) = .ok r e := by
  show runParseStep (runParse f) (.exprLoop rem left) = .ok r e
  simp [runParseStep, hws, hterm, hloop]

/-- One `-` iteration of the expression loop. -/
theorem runParse_exprLoop_sub (f : Nat) {rem t ni r : List Char}
    {left right e : Expr} (hws : dropWS rem = '-' :: t)
    (hterm : runParse f (.term t) = .ok ni right)
    (hloop : runParse f (.exprLoop ni (.sub left right)) = .ok r e) :
    runParse (f + 1) (.exprLoop rem left) = .ok r e := by
  show runParseStep (runParse f) (.exprLoop rem left) = .ok r e
  simp [runParseStep, hws, hterm, hloop]

/-- `parse_expression`: one term, then the `+`/`-` loop. -/
theorem runParse_expr_comp (f : Nat) {s rem r : List Char} {left e : Expr}
    (hterm : runParse f (.term s) = .ok rem left)
    (hloop : runParse f (.exprLoop rem left) = .ok r e) :
    runParse (f + 1) (.expr s) = .ok r e := by
  show runParseStep (runParse f) (.expr s) = .ok r e
  simp [runParseStep, hterm, hloop]

/-- The entry point agrees with any sufficiently fueled run. -/
theorem parse_expression_eq_of_ok {f : Nat} {s r : List Char} {e : Expr}
    (h : runParse f (.expr s) = .ok r e) (hf : f ≤ enoughFuel s) :
    parse_expression s = .ok r e :=
  runParse_ok_mono h hf

/-- Append extra input to the input position of a call, leaving the
accumulator untouched. -/
def appendCall (j : List Char) : Call → Call
  | .paren s => .paren (s ++ j)
  | .factor s => .factor (s ++ j)
  | .termLoop s l => .termLoop (s ++ j) l
  | .term s => .term (s ++ j)
  | .exprLoop s l => .exprLoop (s ++ j) l
  | .expr s => .expr (s ++ j)

/-- Appending nothing is the identity on calls. -/
theorem appendCall_nil (c : Call) : appendCall [] c = c := by
  cases c <;> simp [appendCall]

/-- `parse_parenthesized` can never succeed on empty input. -/
theorem runParse_paren_nil_not_ok (f : Nat) (r : List Char) (e : Expr) :
    runParse f (.paren []) ≠ .ok r e := by
  match f with
  | 0 => exact fun h => PRes.noConfusion h
  | f + 1 => exact fun h => PRes.noConfusion h

/-- Simulation/extension theorem: appending a continuation that starts
with neither an operator (after whitespace) nor a character that could
extend a numeric literal does not disturb any successful parse — the
run is replayed verbatim and the continuation simply joins the
unconsumed remainder.  This is how the source parser accepts a valid
prefix and reports the rest of the line as leftover input. -/
theorem runParse_ok_append (j : List Char)
    (hop : dropWS j = [] ∨ ∃ c t, dropWS j = c :: t ∧
      c ≠ '+' ∧ c ≠ '-' ∧ c ≠ '*' ∧ c ≠ '/')
    (hlit : j = [] ∨ ∃ c t, j = c :: t ∧
      c.isDigit = false ∧ c ≠ '.' ∧ c ≠ 'e' ∧ c ≠ 'E') :
    ∀ (f : Nat) (c : Call) (r : List Char) (e : Expr),
      runParse f c = .ok r e → runParse f (appendCall j c) = .ok (r ++ j) e := by
  rcases hlit with rfl | ⟨cj, tj, hj, hcd, hcdot, hce, hcE⟩
  · intro f c r e h
    rw [appendCall_nil, List.append_nil]
    exact h
  · intro f
    induction f with
    | zero =>
      intro c r e h
      exact PRes.noConfusion h
    | succ f ih =>
      intro c r e h
      match c with
      | .paren input =>
        simp only [runParse, runParseStep] at h
        split at h
        · exact PRes.noConfusion h
        next c0 t =>
          by_cases hp : c0 = '('
          · rw [if_pos hp] at h
            split at h
            · exact PRes.noConfusion h
            · exact PRes.noConfusion h
            next rest e1 hexpr =>
              split at h
              · exact PRes.noConfusion h
              next c1 r2 =>
                by_cases hc1 : c1 = ')'
                · rw [if_pos hc1] at h
                  injection h with h1 h2
                  subst h1
                  subst h2
                  have hIH := ih (.expr t) (c1 :: r2) e1 hexpr
                  simp only [appendCall] at hIH
                  show runParseStep (runParse f)
                    (.paren ((c0 :: t) ++ j)) = .ok (r2 ++ j) e1
                  rw [List.cons_append]
                  simp only [runParseStep, if_pos hp, hIH,
                    List.cons_append, if_pos hc1]
                · rw [if_neg hc1] at h
                  exact PRes.noConfusion h
          · rw [if_neg hp] at h
            exact PRes.noConfusion h
      | .factor input =>
        simp only [runParse, runParseStep] at h
        split at h
        · exact PRes.noConfusion h
        next rest e1 hparen =>
          injection h with h1 h2
          subst h1
          subst h2
          have hne : dropWS input ≠ [] := by
            intro h0
            rw [h0] at hparen
            exact runParse_paren_nil_not_ok f _ _ hparen
          have hdr : dropWS (input ++ j) = dropWS input ++ j :=
            dropWS_append_of_ne hne j
          have hIH := ih (.paren (dropWS input)) rest e1 hparen
          simp only [appendCall] at hIH
          show runParseStep (runParse f) (.factor (input ++ j))
            = .ok (rest ++ j) e1
          simp only [runParseStep, hdr, hIH]
        next hparen =>
          split at h
          next rest v hnum =>
            injection h with h1 h2
            subst h1
            subst h2
            obtain ⟨chd, ttl, hdws, hchd⟩ := parse_number_head hnum
            obtain ⟨-, hnp, -⟩ := litHead_facts hchd
            have hne : dropWS input ≠ [] := by
              rw [hdws]
              exact List.cons_ne_nil _ _
            have hdr : dropWS (input ++ j) = dropWS input ++ j :=
              dropWS_append_of_ne hne j
            have hpfail : runParse f (.paren (dropWS input ++ j)) = .fail := by
              match f with
              | 0 => exact absurd hparen (by simp [runParse])
              | f' + 1 =>
                show runParseStep (runParse f')
                  (.paren (dropWS input ++ j)) = .fail
                rw [hdws, List.cons_append]
                simp [runParseStep, if_neg hnp]
            have hnum' : parse_number (dropWS input ++ j)
                = some (rest ++ j, v) := by
              match hrest : rest with
              | [] =>
                rw [hj, List.nil_append]
                exact parse_number_append tj hnum hcd hcdot hce hcE
              | c0 :: t0 =>
                exact parse_number_append_internal j hnum (by simp)
            show runParseStep (runParse f) (.factor (input ++ j))
              = .ok (rest ++ j) (.float v)
            simp only [runParseStep, hdr, hpfail, hnum']
          next => exact PRes.noConfusion h
      | .termLoop rem left =>
        simp only [runParse, runParseStep] at h
        split at h
        next hws =>
          injection h with h1 h2
          subst h1
          subst h2
          have hdr : dropWS (rem ++ j) = dropWS j := dropWS_append_of_nil hws j
          show runParseStep (runParse f) (.termLoop (rem ++ j) left)
            = .ok (rem ++ j) left
          rcases hop with hop0 | ⟨c, t, hopc, hplus, hminus, hmul, hdiv⟩
          · simp [runParseStep, hdr, hop0]
          · simp [runParseStep, hdr, hopc, if_neg hmul, if_neg hdiv]
        next c0 t hws =>
          have hdr : dropWS (rem ++ j) = c0 :: (t ++ j) := by
            rw [dropWS_append_of_ne (by rw [hws]; exact List.cons_ne_nil _ _) j,
              hws, List.cons_append]
          by_cases hmul : c0 = '*'
          · rw [if_pos hmul] at h
            split at h
            · exact PRes.noConfusion h
            · exact PRes.noConfusion h
            next ni right hfac =>
              have hIH1 := ih (.factor t) ni right hfac
              have hIH2 := ih (.termLoop ni (.mul left right)) r e h
              simp only [appendCall] at hIH1 hIH2
              show runParseStep (runParse f) (.termLoop (rem ++ j) left)
                = .ok (r ++ j) e
              simp only [runParseStep, hdr, if_pos hmul, hIH1, hIH2]
          · by_cases hdiv : c0 = '/'
            · rw [if_neg hmul, if_pos hdiv] at h
              split at h
              · exact PRes.noConfusion h
              · exact PRes.noConfusion h
              next ni right hfac =>
                have hIH1 := ih (.factor t) ni right hfac
                have hIH2 := ih (.termLoop ni (.div left right)) r e h
                simp only [appendCall] at hIH1 hIH2
                show runParseStep (runParse f) (.termLoop (rem ++ j) left)
                  = .ok (r ++ j) e
                simp only [runParseStep, hdr, if_neg hmul, if_pos hdiv,
                  hIH1, hIH2]
            · rw [if_neg hmul, if_neg hdiv] at h
              injection h with h1 h2
              subst h1
              subst h2
              show runParseStep (runParse f) (.termLoop (rem ++ j) left)
                = .ok (rem ++ j) left
              simp [runParseStep, hdr, if_neg hmul, if_neg hdiv]
      | .term input =>
        simp only [runParse, runParseStep] at h
        split at h
        · exact PRes.noConfusion h
        · exact PRes.noConfusion h
        next rem left hfac =>
          have hIH1 := ih (.factor input) rem left hfac
          have hIH2 := ih (.termLoop rem left) r e h
          simp only [appendCall] at hIH1 hIH2
          show runParseStep (runParse f) (.term (input ++ j)) = .ok (r ++ j) e
          simp only [runParseStep, hIH1, hIH2]
      | .exprLoop rem left =>
        simp only [runParse, runParseStep] at h
        split at h
        next hws =>
          injection h with h1 h2
          subst h1
          subst h2
          have hdr : dropWS (rem ++ j) = dropWS j := dropWS_append_of_nil hws j
          show runParseStep (runParse f) (.exprLoop (rem ++ j) left)
            = .ok (rem ++ j) left
          rcases hop with hop0 | ⟨c, t, hopc, hplus, hminus, hmul, hdiv⟩
          · simp [runParseStep, hdr, hop0]
          · simp [runParseStep, hdr, hopc, if_neg hplus, if_neg hminus]
        next c0 t hws =>
          have hdr : dropWS (rem ++ j) = c0 :: (t ++ j) := by
            rw [dropWS_append_of_ne (by rw [hws]; exact List.cons_ne_nil _ _) j,
              hws, List.cons_append]
          by_cases hadd : c0 = '+'
          · rw [if_pos hadd] at h
            split at h
            · exact PRes.noConfusion h
            · exact PRes.noConfusion h
            next ni right hterm =>
              have hIH1 := ih (.term t) ni right hterm
              have hIH2 := ih (.exprLoop ni (.add left right)) r e h
              simp only [appendCall] at hIH1 hIH2
              show runParseStep (runParse f) (.exprLoop (rem ++ j) left)
                = .ok (r ++ j) e
              simp only [runParseStep, hdr, if_pos hadd, hIH1, hIH2]
          · by_cases hneg : c0 = '-'
            · rw [if_neg hadd, if_pos hneg] at h
              split at h
              · exact PRes.noConfusion h
              · exact PRes.noConfusion h
              next ni right hterm =>
                have hIH1 := ih (.term t) ni right hterm
                have hIH2 := ih (.exprLoop ni (.sub left right)) r e h
                simp only [appendCall] at hIH1 hIH2
                show runParseStep (runParse f) (.exprLoop (rem ++ j) left)
                  = .ok (r ++ j) e
                simp only [runParseStep, hdr, if_neg hadd, if_pos hneg,
                  hIH1, hIH2]
            · rw [if_neg hadd, if_neg hneg] at h
              injection h with h1 h2
              subst h1
              subst h2
              show runParseStep (runParse f) (.exprLoop (rem ++ j) left)
                = .ok (rem ++ j) left
              simp [runParseStep, hdr, if_neg hadd, if_neg hneg]
      | .expr input =>
        simp only [runParse, runParseStep] at h
        split at h
        · exact PRes.noConfusion h
        · exact PRes.noConfusion h
        next rem left hterm =>
          have hIH1 := ih (.term input) rem left hterm
          have hIH2 := ih (.exprLoop rem left) r e h
          simp only [appendCall] at hIH1 hIH2
          show runParseStep (runParse f) (.expr (input ++ j)) = .ok (r ++ j) e
          simp only [runParseStep, hIH1, hIH2]

/-! ## Claim checkers -/

/-- A full round trip: the input parses with only whitespace left over,
and evaluating the tree lands within `1e-10` of the expected value. -/
def roundTrips (s : String) (expected : ℚ) : Bool :=
  match parse_expression s.toList with
  | .ok r e =>
    decide (dropWS r = []) &&
      (match evaluate e with
       | .ok v => decide (|v - expected| < 1 / 10 ^ 10)
       | .err _ => false)
  | _ => false

/-- The spec's rejection criterion: the parse fails outright, or
succeeds with a remainder that is nonempty after discarding
whitespace. -/
def rejected (s : String) : Bool :=
  match parse_expression s.toList with
  | .fail => true
  | .ok r _ => decide (dropWS r ≠ [])
  | .timeout => false

/-- The input shape `a OP1 b OP2 c` with single spaces, used by the
precedence and associativity claims. -/
def opChain (sa : List Char) (o1 : Char) (sb : List Char) (o2 : Char)
    (sc : List Char) : List Char :=
  sa ++ ' ' :: o1 :: ' ' :: (sb ++ ' ' :: o2 :: ' ' :: sc)

/-- The input shape `(a OP1 b) OP2 c` with single spaces. -/
def parenChain (sa : List Char) (o1 : Char) (sb : List Char) (o2 : Char)
    (sc : List Char) : List Char :=
  '(' :: (sa ++ ' ' :: o1 :: ' ' :: (sb ++ ')' :: ' ' :: o2 :: ' ' :: sc))

/-! ## Small helpers for the symbolic claims -/

/-- Whitespace before a non-whitespace character is skipped. -/
theorem dropWS_sp_op (c : Char) (hx : isWS c = false) (xs : List Char) :
    dropWS (' ' :: c :: xs) = c :: xs := by
  rw [dropWS_cons_ws _ (by decide)]
  exact dropWS_cons_not hx

/-- Package a concrete `dropWS` boundary as the no-`*`/`/` condition. -/
theorem noMulDiv_of_eq {rest x : List Char} {c1 : Char}
    (hws : dropWS rest = c1 :: x) (h1 : c1 ≠ '*') (h2 : c1 ≠ '/') :
    ∀ c0 t, dropWS rest = c0 :: t → c0 ≠ '*' ∧ c0 ≠ '/' := by
  intro c0 t h
  rw [hws] at h
  injection h with ha hb
  exact ⟨ha ▸ h1, ha ▸ h2⟩

/-- An empty boundary trivially satisfies the no-`*`/`/` condition. -/
theorem noMulDiv_of_nil {rest : List Char} (hws : dropWS rest = []) :
    ∀ c0 t, dropWS rest = c0 :: t → c0 ≠ '*' ∧ c0 ≠ '/' := by
  intro c0 t h
  rw [hws] at h
  exact List.noConfusion h

/-- A term that is a single numeric literal: the factor takes the
literal and the `*`/`/` loop immediately breaks. -/
theorem runParse_term_lit (f : Nat) {i s rest : List Char} {v : ℚ}
    (hdrop : dropWS i = s) (h : parse_number s = some (rest, v))
    (hns : ∀ c0 t, dropWS rest = c0 :: t → c0 ≠ '*' ∧ c0 ≠ '/') :
    runParse (f + 3) (.term i) = .ok rest (.float v) := by
  refine runParse_term_comp (f + 2) (runParse_factor_lit f hdrop h) ?_
  match hws : dropWS rest with
  | [] => exact runParse_termLoop_break_nil (f + 1) _ hws
  | c0 :: t =>
    obtain ⟨h1, h2⟩ := hns c0 t hws
    exact runParse_termLoop_break_cons (f + 1) _ hws h1 h2

section ClaimTheorems

attribute [local semireducible] Rat.mul Rat.inv Rat.add Rat.sub Rat.ofScientific

/-- C3: `evaluate` on `Div(left, right)` inspects the right subtree
first: a denominator of exactly `0` yields the `DivisionByZero` error
for every left subtree (so the left subtree is never consulted); a
nonzero denominator makes the result that of the left subtree divided
by it; and the parse of `"8 / 0"` evaluates to `DivisionByZero`, never
a number. -/
theorem claim_c3_division_by_zero :
    (∀ l r : Expr, evaluate r = .ok 0 →
      evaluate (.div l r) = .err .divisionByZero) ∧
    (∀ (l r : Expr) (d : ℚ), evaluate r = .ok d → d ≠ 0 →
      evaluate (.div l r) =
        (match evaluate l with
         | .err er => .err er
         | .ok n => .ok (n / d))) ∧
    parse_expression (String.toList "8 / 0")
      = .ok [] (.div (.float 8) (.float 0)) ∧
    evaluate (.div (.float 8) (.float 0)) = .err .divisionByZero := by
  refine ⟨?_, ?_, by decide, by decide⟩
  · intro l r h
    simp [evaluate, h]
  · intro l r d h hd
    simp [evaluate, h, hd]

/-- Witness for C3 at concrete inputs: division by a zero-valued right
subtree errors, and an ordinary division computes the quotient. -/
theorem claim_c3_division_by_zero_witness :
    evaluate (.div (.float 5) (.float 0)) = .err .divisionByZero ∧
    evaluate (.div (.float 8) (.float 2)) = .ok 4 := by
  constructor
  · exact claim_c3_division_by_zero.1 (.float 5) (.float 0) rfl
  · have h := claim_c3_division_by_zero.2.1 (.float 8) (.float 2) 2 rfl
      (by decide)
    rw [h]
    decide

/-- C4: the six round-trip scenarios parse with only whitespace left
and evaluate within `1e-10` of the stated values. -/
theorem claim_c4_round_trips :
    roundTrips "1 + 2 * (3 - 4) / 5" (6 / 10) = true ∧
    roundTrips "42" 42 = true ∧
    roundTrips "(1 + 2) * 3" 9 = true ∧
    roundTrips "10 / 2 + 3 * 4" 17 = true ∧
    roundTrips "-3.5 * 2" (-7) = true ∧
    roundTrips "10.5 / -2.1" (-5) = true := by
  refine ⟨by decide, by decide, by decide, by decide, by decide, by decide⟩

/-- C5: each member of the rejection set either fails to parse or
leaves a nonempty (after whitespace) remainder. -/
theorem claim_c5_rejection_set :
    rejected "" = true ∧
    rejected "   " = true ∧
    rejected "* 40 - 10" = true ∧
    rejected "5 + + 3" = true ∧
    rejected "(5 + 3" = true ∧
    rejected "5 + " = true ∧
    rejected "+ 5" = true ∧
    rejected "(((" = true ∧
    rejected ")))" = true ∧
    rejected "5 + ()" = true := by
  refine ⟨by decide, by decide, by decide, by decide, by decide,
    by decide, by decide, by decide, by decide, by decide⟩

/-- C6: at the factor level the parenthesized attempt is tried first at
the whitespace-stripped position; only when that whole attempt fails is
a numeric literal tried at the same position.  Concretely `"(5"` fails
as a factor (the literal fallback re-reads from the `(`, it does not
resume after it) while its parenthesis-free content would have been a
valid literal. -/
theorem claim_c6_factor_ordering :
    (∀ (f : Nat) (i rest : List Char) (e : Expr),
      runParse f (.paren (dropWS i)) = .ok rest e →
        runParse (f + 1) (.factor i) = .ok rest e) ∧
    (∀ (f : Nat) (i : List Char),
      runParse f (.paren (dropWS i)) = .fail →
        runParse (f + 1) (.factor i) =
          (match parse_number (dropWS i) with
           | some (rest, v) => PRes.ok rest (.float v)
           | none => .fail)) ∧
    parse_factor (String.toList "(5") = .fail ∧
    parse_number (String.toList "(5") = none ∧
    parse_number (String.toList "5") = some ([], 5) := by
  refine ⟨?_, ?_, by decide, by decide, by decide⟩
  · intro f i rest e h
    show runParseStep (runParse f) (.factor i) = .ok rest e
    simp [runParseStep, h]
  · intro f i h
    show runParseStep (runParse f) (.factor i) =
      (match parse_number (dropWS i) with
       | some (rest, v) => PRes.ok rest (.float v)
       | none => .fail)
    simp [runParseStep, h]

/-- Witness for C6: a parenthesized factor at concrete input, obtained
through the paren-first branch. -/
theorem claim_c6_factor_ordering_witness :
    runParse 61 (.factor (String.toList "(5)")) = .ok [] (.float 5) :=
  claim_c6_factor_ordering.1 60 (String.toList "(5)") [] (.float 5)
    (by decide)

/-- C8: parsing and evaluation are total.  The parser, run with its
fuel bound, always returns an explicit failure or a parse (never the
fuel marker, i.e. the source recursion terminates); the evaluator
always returns a value or the explicit division-by-zero error. -/
theorem claim_c8_totality :
    (∀ s : List Char, parse_expression s = .fail ∨
      ∃ r e, parse_expression s = .ok r e) ∧
    (∀ e : Expr, (∃ v, evaluate e = .ok v) ∨
      evaluate e = .err .divisionByZero) := by
  constructor
  · intro s
    match hv : parse_expression s with
    | .timeout => exact absurd hv (parse_expression_no_timeout s)
    | .fail => exact Or.inl rfl
    | .ok r e => exact Or.inr ⟨r, e, rfl⟩
  · intro e
    match hv : evaluate e with
    | .ok v => exact Or.inl ⟨v, rfl⟩
    | .err er =>
      cases er
      exact Or.inr rfl

/-- C9: the operator loops leave the whitespace before a break
unconsumed, so a closing parenthesis preceded by whitespace is not
found: whenever the inner expression of a parenthesized group leaves a
remainder starting with whitespace, `parse_parenthesized` fails; hence
`"(1 + 2 )"` fails to parse while `"(1 + 2)"` parses. -/
theorem claim_c9_ws_before_rparen :
    (∀ (f : Nat) (inner t : List Char) (e : Expr) (c : Char),
      runParse f (.expr inner) = .ok (c :: t) e → isWS c = true →
        runParse (f + 1) (.paren ('(' :: inner)) = .fail) ∧
    parse_expression (String.toList "(1 + 2 )") = .fail ∧
    parse_expression (String.toList "(1 + 2)")
      = .ok [] (.add (.float 1) (.float 2)) := by
  refine ⟨?_, by decide, by decide⟩
  intro f inner t e c hexpr hcws
  have hc' : c ≠ ')' := by
    have hcs : ((c = ' ' ∨ c = '\t') ∨ c = '\n') ∨ c = '\r' := by
      simpa [isWS, Bool.or_eq_true, decide_eq_true_eq] using hcws
    rcases hcs with ((rfl | rfl) | rfl) | rfl <;> decide
  show runParseStep (runParse f) (.paren ('(' :: inner)) = .fail
  simp [runParseStep, hexpr, if_neg hc']

/-- Witness for C9: the general whitespace-before-`)` failure applied
to the concrete inner input `"1 + 2 "`. -/
theorem claim_c9_ws_before_rparen_witness :
    runParse 60 (.paren ('(' :: String.toList "1 + 2 ")) = .fail :=
  claim_c9_ws_before_rparen.1 59 (String.toList "1 + 2 ") []
    (.add (.float 1) (.float 2)) ' ' (by decide) (by decide)

/-- C10: nom's `double` accepts more literal forms than the spec's
grammar: a leading `+` sign and exponent notation.  `"5 + +3"` parses
completely as `Add(5, 3)` and `"1e3"` as the literal `1000`. -/
theorem claim_c10_literal_forms :
    parse_expression (String.toList "5 + +3")
      = .ok [] (.add (.float 5) (.float 3)) ∧
    parse_expression (String.toList "1e3") = .ok [] (.float 1000) ∧
    parse_number (String.toList "+3") = some ([], 3) ∧
    parse_number (String.toList "2.5e-1") = some ([], 1 / 4) := by
  refine ⟨by decide, by decide, by decide, by decide⟩

/-- C7 counterexample: the claim as stated is false of the code.  In
`"5 * / 3"` the proper prefix `"5"` is a valid expression that cannot
be extended (every longer prefix fails to parse), yet `parse_expression`
returns a syntax error for the whole input instead of succeeding with
`"5"`'s tree and `" * / 3"` as remainder: after consuming the `*` the
parser commits, and the failing right operand propagates out. -/
theorem claim_c7_prefix_counterexample :
    parse_expression (String.toList "5") = .ok [] (.float 5) ∧
    parse_expression (String.toList "5 *") = .fail ∧
    parse_expression (String.toList "5 * /") = .fail ∧
    parse_expression (String.toList "5 * / 3") = .fail := by
  refine ⟨by decide, by decide, by decide, by decide⟩

/-- C7 (amended): the parser is prefix-tolerant as long as the suffix
does not begin with an operator.  Every successful parse returns a
suffix of the input as the remainder (the consumed part is a prefix);
and whenever a fully parseable expression is followed by a continuation
that starts (after whitespace) with none of the four operators and
whose first character cannot extend a numeric literal, the whole input
parses successfully to the prefix's tree with exactly that continuation
as remaining input, rather than erroring.  (When the continuation does
begin with an operator, the parser commits to it and may instead fail,
as in the counterexample.)  Concretely, `"1 + 2 zzz"` parses to the
tree of `1 + 2` with `" zzz"` left over. -/
theorem claim_c7_prefix_success :
    (∀ (s r : List Char) (e : Expr), parse_expression s = .ok r e →
      ∃ pre, s = pre ++ r) ∧
    (∀ (p j : List Char) (e : Expr),
      parse_expression p = .ok [] e →
      (dropWS j = [] ∨ ∃ c t, dropWS j = c :: t ∧
        c ≠ '+' ∧ c ≠ '-' ∧ c ≠ '*' ∧ c ≠ '/') →
      (j = [] ∨ ∃ c t, j = c :: t ∧
        c.isDigit = false ∧ c ≠ '.' ∧ c ≠ 'e' ∧ c ≠ 'E') →
      parse_expression (p ++ j) = .ok j e) ∧
    parse_expression (String.toList "1 + 2 zzz")
      = .ok (String.toList " zzz") (.add (.float 1) (.float 2)) := by
  refine ⟨?_, ?_, by decide⟩
  · intro s r e h
    obtain ⟨pre, hpre⟩ := runParse_ok_suffix (enoughFuel s) (.expr s) r e h
    exact ⟨pre, hpre.symm⟩
  · intro p j e h hop hlit
    have happ := runParse_ok_append j hop hlit (enoughFuel p) (.expr p) [] e h
    simp only [appendCall, List.nil_append] at happ
    exact parse_expression_eq_of_ok happ
      (by simp only [enoughFuel, List.length_append]; omega)

/-- Witness for C7: the amended prefix-tolerance theorem applied at the
concrete decomposition `"1 + 2" ++ " zzz"`. -/
theorem claim_c7_prefix_success_witness :
    parse_expression (String.toList "1 + 2" ++ String.toList " zzz")
      = .ok (String.toList " zzz") (.add (.float 1) (.float 2)) := by
  apply claim_c7_prefix_success.2.1 (String.toList "1 + 2")
    (String.toList " zzz") (.add (.float 1) (.float 2)) (by decide)
  · exact Or.inr ⟨'z', ['z', 'z'], by decide, by decide, by decide,
      by decide, by decide⟩
  · exact Or.inr ⟨' ', ['z', 'z', 'z'], by decide, by decide, by decide,
      by decide, by decide⟩

/-- C1: for numeric literals `a`, `b`, `c`, the input `a + b * c`
parses completely to `Add(a, Mul(b, c))`, and never to
`Mul(Add(a, b), c)`: multiplication binds tighter than addition. -/
theorem claim_c1_precedence (sa sb sc : List Char) (va vb vc : ℚ)
    (ha : parse_number sa = some ([], va))
    (hb : parse_number sb = some ([], vb))
    (hc : parse_number sc = some ([], vc)) :
    parse_expression (opChain sa '+' sb '*' sc)
      = .ok [] (.add (.float va) (.mul (.float vb) (.float vc))) ∧
    ∀ r : List Char, parse_expression (opChain sa '+' sb '*' sc)
      ≠ .ok r (.mul (.add (.float va) (.float vb)) (.float vc)) := by
  have hb' : parse_number (sb ++ ' ' :: '*' :: ' ' :: sc)
      = some (' ' :: '*' :: ' ' :: sc, vb) :=
    parse_number_append _ hb (by decide) (by decide) (by decide) (by decide)
  have ha' : parse_number
      (sa ++ ' ' :: '+' :: ' ' :: (sb ++ ' ' :: '*' :: ' ' :: sc))
      = some (' ' :: '+' :: ' ' :: (sb ++ ' ' :: '*' :: ' ' :: sc), va) :=
    parse_number_append _ ha (by decide) (by decide) (by decide) (by decide)
  obtain ⟨c1, t1, hsa, hca⟩ := parse_number_head ha
  obtain ⟨hcaws, -, -⟩ := litHead_facts hca
  obtain ⟨c2, t2, hsb, hcb⟩ := parse_number_head hb
  obtain ⟨hcbws, -, -⟩ := litHead_facts hcb
  obtain ⟨c3, t3, hsc, hcc⟩ := parse_number_head hc
  obtain ⟨hccws, -, -⟩ := litHead_facts hcc
  have hdrop0 : dropWS
      (sa ++ ' ' :: '+' :: ' ' :: (sb ++ ' ' :: '*' :: ' ' :: sc))
      = sa ++ ' ' :: '+' :: ' ' :: (sb ++ ' ' :: '*' :: ' ' :: sc) :=
    dropWS_append_not _ hsa hcaws _
  have hdropB : dropWS (' ' :: (sb ++ ' ' :: '*' :: ' ' :: sc))
      = sb ++ ' ' :: '*' :: ' ' :: sc := by
    rw [dropWS_cons_ws _ (by decide)]
    exact dropWS_append_not _ hsb hcbws _
  have hdropC : dropWS (' ' :: sc) = sc := by
    rw [dropWS_cons_ws _ (by decide), hsc]
    exact dropWS_cons_not hccws
  have hwsA : dropWS (' ' :: '+' :: ' ' :: (sb ++ ' ' :: '*' :: ' ' :: sc))
      = '+' :: ' ' :: (sb ++ ' ' :: '*' :: ' ' :: sc) :=
    dropWS_sp_op '+' (by decide) _
  have hwsB : dropWS (' ' :: '*' :: ' ' :: sc) = '*' :: ' ' :: sc :=
    dropWS_sp_op '*' (by decide) _
  have hterm1 : runParse 3
      (.term (sa ++ ' ' :: '+' :: ' ' :: (sb ++ ' ' :: '*' :: ' ' :: sc)))
      = .ok (' ' :: '+' :: ' ' :: (sb ++ ' ' :: '*' :: ' ' :: sc)) (.float va) :=
    runParse_term_lit 0 hdrop0 ha'
      (noMulDiv_of_eq hwsA (by decide) (by decide))
  have hfacB : runParse 2 (.factor (' ' :: (sb ++ ' ' :: '*' :: ' ' :: sc)))
      = .ok (' ' :: '*' :: ' ' :: sc) (.float vb) :=
    runParse_factor_lit 0 hdropB hb'
  have hfacC : runParse 2 (.factor (' ' :: sc)) = .ok [] (.float vc) :=
    runParse_factor_lit 0 hdropC hc
  have hloopC : runParse 2 (.termLoop [] (.mul (.float vb) (.float vc)))
      = .ok [] (.mul (.float vb) (.float vc)) :=
    runParse_termLoop_break_nil 1 _ rfl
  have hloopB : runParse 3 (.termLoop (' ' :: '*' :: ' ' :: sc) (.float vb))
      = .ok [] (.mul (.float vb) (.float vc)) :=
    runParse_termLoop_mul 2 hwsB hfacC hloopC
  have htermB : runParse 4 (.term (' ' :: (sb ++ ' ' :: '*' :: ' ' :: sc)))
      = .ok [] (.mul (.float vb) (.float vc)) :=
    runParse_term_comp 3 (runParse_ok_mono hfacB (by omega)) hloopB
  have hloopNil : runParse 4
      (.exprLoop [] (.add (.float va) (.mul (.float vb) (.float vc))))
      = .ok [] (.add (.float va) (.mul (.float vb) (.float vc))) :=
    runParse_exprLoop_break_nil 3 _ rfl
  have hloopA : runParse 5
      (.exprLoop (' ' :: '+' :: ' ' :: (sb ++ ' ' :: '*' :: ' ' :: sc))
        (.float va))
      = .ok [] (.add (.float va) (.mul (.float vb) (.float vc))) :=
    runParse_exprLoop_add 4 hwsA (runParse_ok_mono htermB (by omega)) hloopNil
  have hmain : runParse 6
      (.expr (sa ++ ' ' :: '+' :: ' ' :: (sb ++ ' ' :: '*' :: ' ' :: sc)))
      = .ok [] (.add (.float va) (.mul (.float vb) (.float vc))) :=
    runParse_expr_comp 5 (runParse_ok_mono hterm1 (by omega)) hloopA
  have hfinal : parse_expression (opChain sa '+' sb '*' sc)
      = .ok [] (.add (.float va) (.mul (.float vb) (.float vc))) := by
    show parse_expression
      (sa ++ ' ' :: '+' :: ' ' :: (sb ++ ' ' :: '*' :: ' ' :: sc)) = _
    exact parse_expression_eq_of_ok hmain (by simp [enoughFuel])
  refine ⟨hfinal, ?_⟩
  intro r hbad
  rw [hfinal] at hbad
  injection hbad with h1 h2
  exact Expr.noConfusion h2

/-- Witness for C1 at concrete literals (a signed decimal, a plain
integer and an exponent literal): `-1.5 + 2 * 3e1`. -/
theorem claim_c1_precedence_witness :
    parse_expression (opChain (String.toList "-1.5") '+'
        (String.toList "2") '*' (String.toList "3e1"))
      = .ok [] (.add (.float (-(3 / 2))) (.mul (.float 2) (.float 30))) :=
  (claim_c1_precedence (String.toList "-1.5") (String.toList "2")
    (String.toList "3e1") (-(3 / 2)) 2 30
    (by decide) (by decide) (by decide)).1

/-- `a + b + c` folds left: the expression loop accumulates into the
left argument. -/
theorem parse_opChain_add (sa sb sc : List Char) (va vb vc : ℚ)
    (ha : parse_number sa = some ([], va))
    (hb : parse_number sb = some ([], vb))
    (hc : parse_number sc = some ([], vc)) :
    parse_expression (opChain sa '+' sb '+' sc)
      = .ok [] (.add (.add (.float va) (.float vb)) (.float vc)) := by
  have hb' : parse_number (sb ++ ' ' :: '+' :: ' ' :: sc)
      = some (' ' :: '+' :: ' ' :: sc, vb) :=
    parse_number_append _ hb (by decide) (by decide) (by decide) (by decide)
  have ha' : parse_number
      (sa ++ ' ' :: '+' :: ' ' :: (sb ++ ' ' :: '+' :: ' ' :: sc))
      = some (' ' :: '+' :: ' ' :: (sb ++ ' ' :: '+' :: ' ' :: sc), va) :=
    parse_number_append _ ha (by decide) (by decide) (by decide) (by decide)
  obtain ⟨c1, t1, hsa, hca⟩ := parse_number_head ha
  obtain ⟨hcaws, -, -⟩ := litHead_facts hca
  obtain ⟨c2, t2, hsb, hcb⟩ := parse_number_head hb
  obtain ⟨hcbws, -, -⟩ := litHead_facts hcb
  obtain ⟨c3, t3, hsc, hcc⟩ := parse_number_head hc
  obtain ⟨hccws, -, -⟩ := litHead_facts hcc
  have hdrop0 : dropWS
      (sa ++ ' ' :: '+' :: ' ' :: (sb ++ ' ' :: '+' :: ' ' :: sc))
      = sa ++ ' ' :: '+' :: ' ' :: (sb ++ ' ' :: '+' :: ' ' :: sc) :=
    dropWS_append_not _ hsa hcaws _
  have hdropB : dropWS (' ' :: (sb ++ ' ' :: '+' :: ' ' :: sc))
      = sb ++ ' ' :: '+' :: ' ' :: sc := by
    rw [dropWS_cons_ws _ (by decide)]
    exact dropWS_append_not _ hsb hcbws _
  have hdropC : dropWS (' ' :: sc) = sc := by
    rw [dropWS_cons_ws _ (by decide), hsc]
    exact dropWS_cons_not hccws
  have hwsA : dropWS (' ' :: '+' :: ' ' :: (sb ++ ' ' :: '+' :: ' ' :: sc))
      = '+' :: ' ' :: (sb ++ ' ' :: '+' :: ' ' :: sc) :=
    dropWS_sp_op '+' (by decide) _
  have hwsB : dropWS (' ' :: '+' :: ' ' :: sc) = '+' :: ' ' :: sc :=
    dropWS_sp_op '+' (by decide) _
  have hterm1 : runParse 3
      (.term (sa ++ ' ' :: '+' :: ' ' :: (sb ++ ' ' :: '+' :: ' ' :: sc)))
      = .ok (' ' :: '+' :: ' ' :: (sb ++ ' ' :: '+' :: ' ' :: sc)) (.float va) :=
    runParse_term_lit 0 hdrop0 ha'
      (noMulDiv_of_eq hwsA (by decide) (by decide))
  have htermB : runParse 3 (.term (' ' :: (sb ++ ' ' :: '+' :: ' ' :: sc)))
      = .ok (' ' :: '+' :: ' ' :: sc) (.float vb) :=
    runParse_term_lit 0 hdropB hb'
      (noMulDiv_of_eq hwsB (by decide) (by decide))
  have htermC : runParse 3 (.term (' ' :: sc)) = .ok [] (.float vc) :=
    runParse_term_lit 0 hdropC hc (noMulDiv_of_nil rfl)
  have hloop2 : runParse 3
      (.exprLoop [] (.add (.add (.float va) (.float vb)) (.float vc)))
      = .ok [] (.add (.add (.float va) (.float vb)) (.float vc)) :=
    runParse_exprLoop_break_nil 2 _ rfl
  have hloop1 : runParse 4
      (.exprLoop (' ' :: '+' :: ' ' :: sc) (.add (.float va) (.float vb)))
      = .ok [] (.add (.add (.float va) (.float vb)) (.float vc)) :=
    runParse_exprLoop_add 3 hwsB htermC hloop2
  have hloop0 : runParse 5
      (.exprLoop (' ' :: '+' :: ' ' :: (sb ++ ' ' :: '+' :: ' ' :: sc))
        (.float va))
      = .ok [] (.add (.add (.float va) (.float vb)) (.float vc)) :=
    runParse_exprLoop_add 4 hwsA (runParse_ok_mono htermB (by omega)) hloop1
  have hmain : runParse 6
      (.expr (sa ++ ' ' :: '+' :: ' ' :: (sb ++ ' ' :: '+' :: ' ' :: sc)))
      = .ok [] (.add (.add (.float va) (.float vb)) (.float vc)) :=
    runParse_expr_comp 5 (runParse_ok_mono hterm1 (by omega)) hloop0
  show parse_expression
    (sa ++ ' ' :: '+' :: ' ' :: (sb ++ ' ' :: '+' :: ' ' :: sc)) = _
  exact parse_expression_eq_of_ok hmain (by simp [enoughFuel])

/-- `a - b - c` folds left. -/
theorem parse_opChain_sub (sa sb sc : List Char) (va vb vc : ℚ)
    (ha : parse_number sa = some ([], va))
    (hb : parse_number sb = some ([], vb))
    (hc : parse_number sc = some ([], vc)) :
    parse_expression (opChain sa '-' sb '-' sc)
      = .ok [] (.sub (.sub (.float va) (.float vb)) (.float vc)) := by
  have hb' : parse_number (sb ++ ' ' :: '-' :: ' ' :: sc)
      = some (' ' :: '-' :: ' ' :: sc, vb) :=
    parse_number_append _ hb (by decide) (by decide) (by decide) (by decide)
  have ha' : parse_number
      (sa ++ ' ' :: '-' :: ' ' :: (sb ++ ' ' :: '-' :: ' ' :: sc))
      = some (' ' :: '-' :: ' ' :: (sb ++ ' ' :: '-' :: ' ' :: sc), va) :=
    parse_number_append _ ha (by decide) (by decide) (by decide) (by decide)
  obtain ⟨c1, t1, hsa, hca⟩ := parse_number_head ha
  obtain ⟨hcaws, -, -⟩ := litHead_facts hca
  obtain ⟨c2, t2, hsb, hcb⟩ := parse_number_head hb
  obtain ⟨hcbws, -, -⟩ := litHead_facts hcb
  obtain ⟨c3, t3, hsc, hcc⟩ := parse_number_head hc
  obtain ⟨hccws, -, -⟩ := litHead_facts hcc
  have hdrop0 : dropWS
      (sa ++ ' ' :: '-' :: ' ' :: (sb ++ ' ' :: '-' :: ' ' :: sc))
      = sa ++ ' ' :: '-' :: ' ' :: (sb ++ ' ' :: '-' :: ' ' :: sc) :=
    dropWS_append_not _ hsa hcaws _
  have hdropB : dropWS (' ' :: (sb ++ ' ' :: '-' :: ' ' :: sc))
      = sb ++ ' ' :: '-' :: ' ' :: sc := by
    rw [dropWS_cons_ws _ (by decide)]
    exact dropWS_append_not _ hsb hcbws _
  have hdropC : dropWS (' ' :: sc) = sc := by
    rw [dropWS_cons_ws _ (by decide), hsc]
    exact dropWS_cons_not hccws
  have hwsA : dropWS (' ' :: '-' :: ' ' :: (sb ++ ' ' :: '-' :: ' ' :: sc))
      = '-' :: ' ' :: (sb ++ ' ' :: '-' :: ' ' :: sc) :=
    dropWS_sp_op '-' (by decide) _
  have hwsB : dropWS (' ' :: '-' :: ' ' :: sc) = '-' :: ' ' :: sc :=
    dropWS_sp_op '-' (by decide) _
  have hterm1 : runParse 3
      (.term (sa ++ ' ' :: '-' :: ' ' :: (sb ++ ' ' :: '-' :: ' ' :: sc)))
      = .ok (' ' :: '-' :: ' ' :: (sb ++ ' ' :: '-' :: ' ' :: sc)) (.float va) :=
    runParse_term_lit 0 hdrop0 ha'
      (noMulDiv_of_eq hwsA (by decide) (by decide))
  have htermB : runParse 3 (.term (' ' :: (sb ++ ' ' :: '-' :: ' ' :: sc)))
      = .ok (' ' :: '-' :: ' ' :: sc) (.float vb) :=
    runParse_term_lit 0 hdropB hb'
      (noMulDiv_of_eq hwsB (by decide) (by decide))
  have htermC : runParse 3 (.term (' ' :: sc)) = .ok [] (.float vc) :=
    runParse_term_lit 0 hdropC hc (noMulDiv_of_nil rfl)
  have hloop2 : runParse 3
      (.exprLoop [] (.sub (.sub (.float va) (.float vb)) (.float vc)))
      = .ok [] (.sub (.sub (.float va) (.float vb)) (.float vc)) :=
    runParse_exprLoop_break_nil 2 _ rfl
  have hloop1 : runParse 4
      (.exprLoop (' ' :: '-' :: ' ' :: sc) (.sub (.float va) (.float vb)))
      = .ok [] (.sub (.sub (.float va) (.float vb)) (.float vc)) :=
    runParse_exprLoop_sub 3 hwsB htermC hloop2
  have hloop0 : runParse 5
      (.exprLoop (' ' :: '-' :: ' ' :: (sb ++ ' ' :: '-' :: ' ' :: sc))
        (.float va))
      = .ok [] (.sub (.sub (.float va) (.float vb)) (.float vc)) :=
    runParse_exprLoop_sub 4 hwsA (runParse_ok_mono htermB (by omega)) hloop1
  have hmain : runParse 6
      (.expr (sa ++ ' ' :: '-' :: ' ' :: (sb ++ ' ' :: '-' :: ' ' :: sc)))
      = .ok [] (.sub (.sub (.float va) (.float vb)) (.float vc)) :=
    runParse_expr_comp 5 (runParse_ok_mono hterm1 (by omega)) hloop0
  show parse_expression
    (sa ++ ' ' :: '-' :: ' ' :: (sb ++ ' ' :: '-' :: ' ' :: sc)) = _
  exact parse_expression_eq_of_ok hmain (by simp [enoughFuel])

/-- `a * b * c` folds left inside a single term. -/
theorem parse_opChain_mul (sa sb sc : List Char) (va vb vc : ℚ)
    (ha : parse_number sa = some ([], va))
    (hb : parse_number sb = some ([], vb))
    (hc : parse_number sc = some ([], vc)) :
    parse_expression (opChain sa '*' sb '*' sc)
      = .ok [] (.mul (.mul (.float va) (.float vb)) (.float vc)) := by
  have hb' : parse_number (sb ++ ' ' :: '*' :: ' ' :: sc)
      = some (' ' :: '*' :: ' ' :: sc, vb) :=
    parse_number_append _ hb (by decide) (by decide) (by decide) (by decide)
  have ha' : parse_number
      (sa ++ ' ' :: '*' :: ' ' :: (sb ++ ' ' :: '*' :: ' ' :: sc))
      = some (' ' :: '*' :: ' ' :: (sb ++ ' ' :: '*' :: ' ' :: sc), va) :=
    parse_number_append _ ha (by decide) (by decide) (by decide) (by decide)
  obtain ⟨c1, t1, hsa, hca⟩ := parse_number_head ha
  obtain ⟨hcaws, -, -⟩ := litHead_facts hca
  obtain ⟨c2, t2, hsb, hcb⟩ := parse_number_head hb
  obtain ⟨hcbws, -, -⟩ := litHead_facts hcb
  obtain ⟨c3, t3, hsc, hcc⟩ := parse_number_head hc
  obtain ⟨hccws, -, -⟩ := litHead_facts hcc
  have hdrop0 : dropWS
      (sa ++ ' ' :: '*' :: ' ' :: (sb ++ ' ' :: '*' :: ' ' :: sc))
      = sa ++ ' ' :: '*' :: ' ' :: (sb ++ ' ' :: '*' :: ' ' :: sc) :=
    dropWS_append_not _ hsa hcaws _
  have hdropB : dropWS (' ' :: (sb ++ ' ' :: '*' :: ' ' :: sc))
      = sb ++ ' ' :: '*' :: ' ' :: sc := by
    rw [dropWS_cons_ws _ (by decide)]
    exact dropWS_append_not _ hsb hcbws _
  have hdropC : dropWS (' ' :: sc) = sc := by
    rw [dropWS_cons_ws _ (by decide), hsc]
    exact dropWS_cons_not hccws
  have hwsA : dropWS (' ' :: '*' :: ' ' :: (sb ++ ' ' :: '*' :: ' ' :: sc))
      = '*' :: ' ' :: (sb ++ ' ' :: '*' :: ' ' :: sc) :=
    dropWS_sp_op '*' (by decide) _
  have hwsB : dropWS (' ' :: '*' :: ' ' :: sc) = '*' :: ' ' :: sc :=
    dropWS_sp_op '*' (by decide) _
  have hfacA : runParse 2
      (.factor (sa ++ ' ' :: '*' :: ' ' :: (sb ++ ' ' :: '*' :: ' ' :: sc)))
      = .ok (' ' :: '*' :: ' ' :: (sb ++ ' ' :: '*' :: ' ' :: sc)) (.float va) :=
    runParse_factor_lit 0 hdrop0 ha'
  have hfacB : runParse 2 (.factor (' ' :: (sb ++ ' ' :: '*' :: ' ' :: sc)))
      = .ok (' ' :: '*' :: ' ' :: sc) (.float vb) :=
    runParse_factor_lit 0 hdropB hb'
  have hfacC : runParse 2 (.factor (' ' :: sc)) = .ok [] (.float vc) :=
    runParse_factor_lit 0 hdropC hc
  have hl2 : runParse 2
      (.termLoop [] (.mul (.mul (.float va) (.float vb)) (.float vc)))
      = .ok [] (.mul (.mul (.float va) (.float vb)) (.float vc)) :=
    runParse_termLoop_break_nil 1 _ rfl
  have hl1 : runParse 3
      (.termLoop (' ' :: '*' :: ' ' :: sc) (.mul (.float va) (.float vb)))
      = .ok [] (.mul (.mul (.float va) (.float vb)) (.float vc)) :=
    runParse_termLoop_mul 2 hwsB hfacC hl2
  have hl0 : runParse 4
      (.termLoop (' ' :: '*' :: ' ' :: (sb ++ ' ' :: '*' :: ' ' :: sc))
        (.float va))
      = .ok [] (.mul (.mul (.float va) (.float vb)) (.float vc)) :=
    runParse_termLoop_mul 3 hwsA (runParse_ok_mono hfacB (by omega)) hl1
  have hterm : runParse 5
      (.term (sa ++ ' ' :: '*' :: ' ' :: (sb ++ ' ' :: '*' :: ' ' :: sc)))
      = .ok [] (.mul (.mul (.float va) (.float vb)) (.float vc)) :=
    runParse_term_comp 4 (runParse_ok_mono hfacA (by omega)) hl0
  have hloop : runParse 5
      (.exprLoop [] (.mul (.mul (.float va) (.float vb)) (.float vc)))
      = .ok [] (.mul (.mul (.float va) (.float vb)) (.float vc)) :=
    runParse_exprLoop_break_nil 4 _ rfl
  have hmain : runParse 6
      (.expr (sa ++ ' ' :: '*' :: ' ' :: (sb ++ ' ' :: '*' :: ' ' :: sc)))
      = .ok [] (.mul (.mul (.float va) (.float vb)) (.float vc)) :=
    runParse_expr_comp 5 hterm hloop
  show parse_expression
    (sa ++ ' ' :: '*' :: ' ' :: (sb ++ ' ' :: '*' :: ' ' :: sc)) = _
  exact parse_expression_eq_of_ok hmain (by simp [enoughFuel])

/-- `a / b / c` folds left inside a single term. -/
theorem parse_opChain_div (sa sb sc : List Char) (va vb vc : ℚ)
    (ha : parse_number sa = some ([], va))
    (hb : parse_number sb = some ([], vb))
    (hc : parse_number sc = some ([], vc)) :
    parse_expression (opChain sa '/' sb '/' sc)
      = .ok [] (.div (.div (.float va) (.float vb)) (.float vc)) := by
  have hb' : parse_number (sb ++ ' ' :: '/' :: ' ' :: sc)
      = some (' ' :: '/' :: ' ' :: sc, vb) :=
    parse_number_append _ hb (by decide) (by decide) (by decide) (by decide)
  have ha' : parse_number
      (sa ++ ' ' :: '/' :: ' ' :: (sb ++ ' ' :: '/' :: ' ' :: sc))
      = some (' ' :: '/' :: ' ' :: (sb ++ ' ' :: '/' :: ' ' :: sc), va) :=
    parse_number_append _ ha (by decide) (by decide) (by decide) (by decide)
  obtain ⟨c1, t1, hsa, hca⟩ := parse_number_head ha
  obtain ⟨hcaws, -, -⟩ := litHead_facts hca
  obtain ⟨c2, t2, hsb, hcb⟩ := parse_number_head hb
  obtain ⟨hcbws, -, -⟩ := litHead_facts hcb
  obtain ⟨c3, t3, hsc, hcc⟩ := parse_number_head hc
  obtain ⟨hccws, -, -⟩ := litHead_facts hcc
  have hdrop0 : dropWS
      (sa ++ ' ' :: '/' :: ' ' :: (sb ++ ' ' :: '/' :: ' ' :: sc))
      = sa ++ ' ' :: '/' :: ' ' :: (sb ++ ' ' :: '/' :: ' ' :: sc) :=
    dropWS_append_not _ hsa hcaws _
  have hdropB : dropWS (' ' :: (sb ++ ' ' :: '/' :: ' ' :: sc))
      = sb ++ ' ' :: '/' :: ' ' :: sc := by
    rw [dropWS_cons_ws _ (by decide)]
    exact dropWS_append_not _ hsb hcbws _
  have hdropC : dropWS (' ' :: sc) = sc := by
    rw [dropWS_cons_ws _ (by decide), hsc]
    exact dropWS_cons_not hccws
  have hwsA : dropWS (' ' :: '/' :: ' ' :: (sb ++ ' ' :: '/' :: ' ' :: sc))
      = '/' :: ' ' :: (sb ++ ' ' :: '/' :: ' ' :: sc) :=
    dropWS_sp_op '/' (by decide) _
  have hwsB : dropWS (' ' :: '/' :: ' ' :: sc) = '/' :: ' ' :: sc :=
    dropWS_sp_op '/' (by decide) _
  have hfacA : runParse 2
      (.factor (sa ++ ' ' :: '/' :: ' ' :: (sb ++ ' ' :: '/' :: ' ' :: sc)))
      = .ok (' ' :: '/' :: ' ' :: (sb ++ ' ' :: '/' :: ' ' :: sc)) (.float va) :=
    runParse_factor_lit 0 hdrop0 ha'
  have hfacB : runParse 2 (.factor (' ' :: (sb ++ ' ' :: '/' :: ' ' :: sc)))
      = .ok (' ' :: '/' :: ' ' :: sc) (.float vb) :=
    runParse_factor_lit 0 hdropB hb'
  have hfacC : runParse 2 (.factor (' ' :: sc)) = .ok [] (.float vc) :=
    runParse_factor_lit 0 hdropC hc
  have hl2 : runParse 2
      (.termLoop [] (.div (.div (.float va) (.float vb)) (.float vc)))
      = .ok [] (.div (.div (.float va) (.float vb)) (.float vc)) :=
    runParse_termLoop_break_nil 1 _ rfl
  have hl1 : runParse 3
      (.termLoop (' ' :: '/' :: ' ' :: sc) (.div (.float va) (.float vb)))
      = .ok [] (.div (.div (.float va) (.float vb)) (.float vc)) :=
    runParse_termLoop_div 2 hwsB hfacC hl2
  have hl0 : runParse 4
      (.termLoop (' ' :: '/' :: ' ' :: (sb ++ ' ' :: '/' :: ' ' :: sc))
        (.float va))
      = .ok [] (.div (.div (.float va) (.float vb)) (.float vc)) :=
    runParse_termLoop_div 3 hwsA (runParse_ok_mono hfacB (by omega)) hl1
  have hterm : runParse 5
      (.term (sa ++ ' ' :: '/' :: ' ' :: (sb ++ ' ' :: '/' :: ' ' :: sc)))
      = .ok [] (.div (.div (.float va) (.float vb)) (.float vc)) :=
    runParse_term_comp 4 (runParse_ok_mono hfacA (by omega)) hl0
  have hloop : runParse 5
      (.exprLoop [] (.div (.div (.float va) (.float vb)) (.float vc)))
      = .ok [] (.div (.div (.float va) (.float vb)) (.float vc)) :=
    runParse_exprLoop_break_nil 4 _ rfl
  have hmain : runParse 6
      (.expr (sa ++ ' ' :: '/' :: ' ' :: (sb ++ ' ' :: '/' :: ' ' :: sc)))
      = .ok [] (.div (.div (.float va) (.float vb)) (.float vc)) :=
    runParse_expr_comp 5 hterm hloop
  show parse_expression
    (sa ++ ' ' :: '/' :: ' ' :: (sb ++ ' ' :: '/' :: ' ' :: sc)) = _
  exact parse_expression_eq_of_ok hmain (by simp [enoughFuel])

/-- `(a - b) - c` parses to the same left-leaning tree as `a - b - c`. -/
theorem parse_parenChain_sub (sa sb sc : List Char) (va vb vc : ℚ)
    (ha : parse_number sa = some ([], va))
    (hb : parse_number sb = some ([], vb))
    (hc : parse_number sc = some ([], vc)) :
    parse_expression (parenChain sa '-' sb '-' sc)
      = .ok [] (.sub (.sub (.float va) (.float vb)) (.float vc)) := by
  have hb' : parse_number (sb ++ ')' :: ' ' :: '-' :: ' ' :: sc)
      = some (')' :: ' ' :: '-' :: ' ' :: sc, vb) :=
    parse_number_append _ hb (by decide) (by decide) (by decide) (by decide)
  have ha' : parse_number
      (sa ++ ' ' :: '-' :: ' ' :: (sb ++ ')' :: ' ' :: '-' :: ' ' :: sc))
      = some (' ' :: '-' :: ' ' :: (sb ++ ')' :: ' ' :: '-' :: ' ' :: sc), va) :=
    parse_number_append _ ha (by decide) (by decide) (by decide) (by decide)
  obtain ⟨c1, t1, hsa, hca⟩ := parse_number_head ha
  obtain ⟨hcaws, -, -⟩ := litHead_facts hca
  obtain ⟨c2, t2, hsb, hcb⟩ := parse_number_head hb
  obtain ⟨hcbws, -, -⟩ := litHead_facts hcb
  obtain ⟨c3, t3, hsc, hcc⟩ := parse_number_head hc
  obtain ⟨hccws, -, -⟩ := litHead_facts hcc
  have hdropInner : dropWS
      (sa ++ ' ' :: '-' :: ' ' :: (sb ++ ')' :: ' ' :: '-' :: ' ' :: sc))
      = sa ++ ' ' :: '-' :: ' ' :: (sb ++ ')' :: ' ' :: '-' :: ' ' :: sc) :=
    dropWS_append_not _ hsa hcaws _
  have hdropB : dropWS (' ' :: (sb ++ ')' :: ' ' :: '-' :: ' ' :: sc))
      = sb ++ ')' :: ' ' :: '-' :: ' ' :: sc := by
    rw [dropWS_cons_ws _ (by decide)]
    exact dropWS_append_not _ hsb hcbws _
  have hdropC : dropWS (' ' :: sc) = sc := by
    rw [dropWS_cons_ws _ (by decide), hsc]
    exact dropWS_cons_not hccws
  have hwsA : dropWS
      (' ' :: '-' :: ' ' :: (sb ++ ')' :: ' ' :: '-' :: ' ' :: sc))
      = '-' :: ' ' :: (sb ++ ')' :: ' ' :: '-' :: ' ' :: sc) :=
    dropWS_sp_op '-' (by decide) _
  have hwsClose : dropWS (')' :: ' ' :: '-' :: ' ' :: sc)
      = ')' :: ' ' :: '-' :: ' ' :: sc :=
    dropWS_cons_not (by decide)
  have hwsC : dropWS (' ' :: '-' :: ' ' :: sc) = '-' :: ' ' :: sc :=
    dropWS_sp_op '-' (by decide) _
  have htermA : runParse 3
      (.term (sa ++ ' ' :: '-' :: ' ' :: (sb ++ ')' :: ' ' :: '-' :: ' ' :: sc)))
      = .ok (' ' :: '-' :: ' ' :: (sb ++ ')' :: ' ' :: '-' :: ' ' :: sc))
          (.float va) :=
    runParse_term_lit 0 hdropInner ha'
      (noMulDiv_of_eq hwsA (by decide) (by decide))
  have htermB : runParse 3
      (.term (' ' :: (sb ++ ')' :: ' ' :: '-' :: ' ' :: sc)))
      = .ok (')' :: ' ' :: '-' :: ' ' :: sc) (.float vb) :=
    runParse_term_lit 0 hdropB hb'
      (noMulDiv_of_eq hwsClose (by decide) (by decide))
  have hel2 : runParse 3
      (.exprLoop (')' :: ' ' :: '-' :: ' ' :: sc)
        (.sub (.float va) (.float vb)))
      = .ok (')' :: ' ' :: '-' :: ' ' :: sc) (.sub (.float va) (.float vb)) :=
    runParse_exprLoop_break_cons 2 _ hwsClose (by decide) (by decide)
  have hel1 : runParse 4
      (.exprLoop (' ' :: '-' :: ' ' :: (sb ++ ')' :: ' ' :: '-' :: ' ' :: sc))
        (.float va))
      = .ok (')' :: ' ' :: '-' :: ' ' :: sc) (.sub (.float va) (.float vb)) :=
    runParse_exprLoop_sub 3 hwsA htermB hel2
  have hexprInner : runParse 5
      (.expr (sa ++ ' ' :: '-' :: ' ' :: (sb ++ ')' :: ' ' :: '-' :: ' ' :: sc)))
      = .ok (')' :: ' ' :: '-' :: ' ' :: sc) (.sub (.float va) (.float vb)) :=
    runParse_expr_comp 4 (runParse_ok_mono htermA (by omega)) hel1
  have hpar : runParse 6
      (.paren ('(' ::
        (sa ++ ' ' :: '-' :: ' ' :: (sb ++ ')' :: ' ' :: '-' :: ' ' :: sc))))
      = .ok (' ' :: '-' :: ' ' :: sc) (.sub (.float va) (.float vb)) :=
    runParse_paren_comp 5 hexprInner
  have hfacOut : runParse 7
      (.factor ('(' ::
        (sa ++ ' ' :: '-' :: ' ' :: (sb ++ ')' :: ' ' :: '-' :: ' ' :: sc))))
      = .ok (' ' :: '-' :: ' ' :: sc) (.sub (.float va) (.float vb)) :=
    runParse_factor_paren 6 (dropWS_cons_not (by decide)) hpar
  have htlOut : runParse 7
      (.termLoop (' ' :: '-' :: ' ' :: sc) (.sub (.float va) (.float vb)))
      = .ok (' ' :: '-' :: ' ' :: sc) (.sub (.float va) (.float vb)) :=
    runParse_termLoop_break_cons 6 _ hwsC (by decide) (by decide)
  have htermOut : runParse 8
      (.term ('(' ::
        (sa ++ ' ' :: '-' :: ' ' :: (sb ++ ')' :: ' ' :: '-' :: ' ' :: sc))))
      = .ok (' ' :: '-' :: ' ' :: sc) (.sub (.float va) (.float vb)) :=
    runParse_term_comp 7 hfacOut htlOut
  have htermC : runParse 3 (.term (' ' :: sc)) = .ok [] (.float vc) :=
    runParse_term_lit 0 hdropC hc (noMulDiv_of_nil rfl)
  have helo2 : runParse 8
      (.exprLoop [] (.sub (.sub (.float va) (.float vb)) (.float vc)))
      = .ok [] (.sub (.sub (.float va) (.float vb)) (.float vc)) :=
    runParse_exprLoop_break_nil 7 _ rfl
  have helOut : runParse 9
      (.exprLoop (' ' :: '-' :: ' ' :: sc) (.sub (.float va) (.float vb)))
      = .ok [] (.sub (.sub (.float va) (.float vb)) (.float vc)) :=
    runParse_exprLoop_sub 8 hwsC (runParse_ok_mono htermC (by omega)) helo2
  have hmain : runParse 10
      (.expr ('(' ::
        (sa ++ ' ' :: '-' :: ' ' :: (sb ++ ')' :: ' ' :: '-' :: ' ' :: sc))))
      = .ok [] (.sub (.sub (.float va) (.float vb)) (.float vc)) :=
    runParse_expr_comp 9 (runParse_ok_mono htermOut (by omega)) helOut
  show parse_expression ('(' ::
      (sa ++ ' ' :: '-' :: ' ' :: (sb ++ ')' :: ' ' :: '-' :: ' ' :: sc))) = _
  exact parse_expression_eq_of_ok hmain
    (by simp only [enoughFuel, List.length_cons]; omega)

/-- `(a / b) / c` parses to the same left-leaning tree as `a / b / c`. -/
theorem parse_parenChain_div (sa sb sc : List Char) (va vb vc : ℚ)
    (ha : parse_number sa = some ([], va))
    (hb : parse_number sb = some ([], vb))
    (hc : parse_number sc = some ([], vc)) :
    parse_expression (parenChain sa '/' sb '/' sc)
      = .ok [] (.div (.div (.float va) (.float vb)) (.float vc)) := by
  have hb' : parse_number (sb ++ ')' :: ' ' :: '/' :: ' ' :: sc)
      = some (')' :: ' ' :: '/' :: ' ' :: sc, vb) :=
    parse_number_append _ hb (by decide) (by decide) (by decide) (by decide)
  have ha' : parse_number
      (sa ++ ' ' :: '/' :: ' ' :: (sb ++ ')' :: ' ' :: '/' :: ' ' :: sc))
      = some (' ' :: '/' :: ' ' :: (sb ++ ')' :: ' ' :: '/' :: ' ' :: sc), va) :=
    parse_number_append _ ha (by decide) (by decide) (by decide) (by decide)
  obtain ⟨c1, t1, hsa, hca⟩ := parse_number_head ha
  obtain ⟨hcaws, -, -⟩ := litHead_facts hca
  obtain ⟨c2, t2, hsb, hcb⟩ := parse_number_head hb
  obtain ⟨hcbws, -, -⟩ := litHead_facts hcb
  obtain ⟨c3, t3, hsc, hcc⟩ := parse_number_head hc
  obtain ⟨hccws, -, -⟩ := litHead_facts hcc
  have hdropInner : dropWS
      (sa ++ ' ' :: '/' :: ' ' :: (sb ++ ')' :: ' ' :: '/' :: ' ' :: sc))
      = sa ++ ' ' :: '/' :: ' ' :: (sb ++ ')' :: ' ' :: '/' :: ' ' :: sc) :=
    dropWS_append_not _ hsa hcaws _
  have hdropB : dropWS (' ' :: (sb ++ ')' :: ' ' :: '/' :: ' ' :: sc))
      = sb ++ ')' :: ' ' :: '/' :: ' ' :: sc := by
    rw [dropWS_cons_ws _ (by decide)]
    exact dropWS_append_not _ hsb hcbws _
  have hdropC : dropWS (' ' :: sc) = sc := by
    rw [dropWS_cons_ws _ (by decide), hsc]
    exact dropWS_cons_not hccws
  have hwsA : dropWS
      (' ' :: '/' :: ' ' :: (sb ++ ')' :: ' ' :: '/' :: ' ' :: sc))
      = '/' :: ' ' :: (sb ++ ')' :: ' ' :: '/' :: ' ' :: sc) :=
    dropWS_sp_op '/' (by decide) _
  have hwsClose : dropWS (')' :: ' ' :: '/' :: ' ' :: sc)
      = ')' :: ' ' :: '/' :: ' ' :: sc :=
    dropWS_cons_not (by decide)
  have hwsC : dropWS (' ' :: '/' :: ' ' :: sc) = '/' :: ' ' :: sc :=
    dropWS_sp_op '/' (by decide) _
  have hfacA : runParse 2
      (.factor (sa ++ ' ' :: '/' :: ' ' :: (sb ++ ')' :: ' ' :: '/' :: ' ' :: sc)))
      = .ok (' ' :: '/' :: ' ' :: (sb ++ ')' :: ' ' :: '/' :: ' ' :: sc))
          (.float va) :=
    runParse_factor_lit 0 hdropInner ha'
  have hfacB : runParse 2
      (.factor (' ' :: (sb ++ ')' :: ' ' :: '/' :: ' ' :: sc)))
      = .ok (')' :: ' ' :: '/' :: ' ' :: sc) (.float vb) :=
    runParse_factor_lit 0 hdropB hb'
  have htl2 : runParse 2
      (.termLoop (')' :: ' ' :: '/' :: ' ' :: sc)
        (.div (.float va) (.float vb)))
      = .ok (')' :: ' ' :: '/' :: ' ' :: sc) (.div (.float va) (.float vb)) :=
    runParse_termLoop_break_cons 1 _ hwsClose (by decide) (by decide)
  have htl1 : runParse 3
      (.termLoop (' ' :: '/' :: ' ' :: (sb ++ ')' :: ' ' :: '/' :: ' ' :: sc))
        (.float va))
      = .ok (')' :: ' ' :: '/' :: ' ' :: sc) (.div (.float va) (.float vb)) :=
    runParse_termLoop_div 2 hwsA hfacB htl2
  have htmIn : runParse 4
      (.term (sa ++ ' ' :: '/' :: ' ' :: (sb ++ ')' :: ' ' :: '/' :: ' ' :: sc)))
      = .ok (')' :: ' ' :: '/' :: ' ' :: sc) (.div (.float va) (.float vb)) :=
    runParse_term_comp 3 (runParse_ok_mono hfacA (by omega)) htl1
  have helIn : runParse 4
      (.exprLoop (')' :: ' ' :: '/' :: ' ' :: sc)
        (.div (.float va) (.float vb)))
      = .ok (')' :: ' ' :: '/' :: ' ' :: sc) (.div (.float va) (.float vb)) :=
    runParse_exprLoop_break_cons 3 _ hwsClose (by decide) (by decide)
  have hexIn : runParse 5
      (.expr (sa ++ ' ' :: '/' :: ' ' :: (sb ++ ')' :: ' ' :: '/' :: ' ' :: sc)))
      = .ok (')' :: ' ' :: '/' :: ' ' :: sc) (.div (.float va) (.float vb)) :=
    runParse_expr_comp 4 htmIn helIn
  have hpar : runParse 6
      (.paren ('(' ::
        (sa ++ ' ' :: '/' :: ' ' :: (sb ++ ')' :: ' ' :: '/' :: ' ' :: sc))))
      = .ok (' ' :: '/' :: ' ' :: sc) (.div (.float va) (.float vb)) :=
    runParse_paren_comp 5 hexIn
  have hfacOut : runParse 7
      (.factor ('(' ::
        (sa ++ ' ' :: '/' :: ' ' :: (sb ++ ')' :: ' ' :: '/' :: ' ' :: sc))))
      = .ok (' ' :: '/' :: ' ' :: sc) (.div (.float va) (.float vb)) :=
    runParse_factor_paren 6 (dropWS_cons_not (by decide)) hpar
  have hfacC : runParse 2 (.factor (' ' :: sc)) = .ok [] (.float vc) :=
    runParse_factor_lit 0 hdropC hc
  have htlo2 : runParse 7
      (.termLoop [] (.div (.div (.float va) (.float vb)) (.float vc)))
      = .ok [] (.div (.div (.float va) (.float vb)) (.float vc)) :=
    runParse_termLoop_break_nil 6 _ rfl
  have htlOut : runParse 8
      (.termLoop (' ' :: '/' :: ' ' :: sc) (.div (.float va) (.float vb)))
      = .ok [] (.div (.div (.float va) (.float vb)) (.float vc)) :=
    runParse_termLoop_div 7 hwsC (runParse_ok_mono hfacC (by omega)) htlo2
  have htmOut : runParse 9
      (.term ('(' ::
        (sa ++ ' ' :: '/' :: ' ' :: (sb ++ ')' :: ' ' :: '/' :: ' ' :: sc))))
      = .ok [] (.div (.div (.float va) (.float vb)) (.float vc)) :=
    runParse_term_comp 8 (runParse_ok_mono hfacOut (by omega)) htlOut
  have helOut : runParse 9
      (.exprLoop [] (.div (.div (.float va) (.float vb)) (.float vc)))
      = .ok [] (.div (.div (.float va) (.float vb)) (.float vc)) :=
    runParse_exprLoop_break_nil 8 _ rfl
  have hmain : runParse 10
      (.expr ('(' ::
        (sa ++ ' ' :: '/' :: ' ' :: (sb ++ ')' :: ' ' :: '/' :: ' ' :: sc))))
      = .ok [] (.div (.div (.float va) (.float vb)) (.float vc)) :=
    runParse_expr_comp 9 htmOut helOut
  show parse_expression ('(' ::
      (sa ++ ' ' :: '/' :: ' ' :: (sb ++ ')' :: ' ' :: '/' :: ' ' :: sc))) = _
  exact parse_expression_eq_of_ok hmain
    (by simp only [enoughFuel, List.length_cons]; omega)

/-- C2: every operator folds left-associatively — for numeric literals
`a`, `b`, `c`, the input `a OP b OP c` parses to `(a OP b) OP c` for
each of the four operators — and consequently `a - b - c` evaluates
exactly as `(a - b) - c` does, and `a / b / c` as `(a / b) / c`. -/
theorem claim_c2_left_assoc (sa sb sc : List Char) (va vb vc : ℚ)
    (ha : parse_number sa = some ([], va))
    (hb : parse_number sb = some ([], vb))
    (hc : parse_number sc = some ([], vc)) :
    parse_expression (opChain sa '+' sb '+' sc)
      = .ok [] (.add (.add (.float va) (.float vb)) (.float vc)) ∧
    parse_expression (opChain sa '-' sb '-' sc)
      = .ok [] (.sub (.sub (.float va) (.float vb)) (.float vc)) ∧
    parse_expression (opChain sa '*' sb '*' sc)
      = .ok [] (.mul (.mul (.float va) (.float vb)) (.float vc)) ∧
    parse_expression (opChain sa '/' sb '/' sc)
      = .ok [] (.div (.div (.float va) (.float vb)) (.float vc)) ∧
    (∃ e1 e2 : Expr,
      parse_expression (opChain sa '-' sb '-' sc) = .ok [] e1 ∧
      parse_expression (parenChain sa '-' sb '-' sc) = .ok [] e2 ∧
      evaluate e1 = evaluate e2) ∧
    (∃ e1 e2 : Expr,
      parse_expression (opChain sa '/' sb '/' sc) = .ok [] e1 ∧
      parse_expression (parenChain sa '/' sb '/' sc) = .ok [] e2 ∧
      evaluate e1 = evaluate e2) :=
  ⟨parse_opChain_add sa sb sc va vb vc ha hb hc,
   parse_opChain_sub sa sb sc va vb vc ha hb hc,
   parse_opChain_mul sa sb sc va vb vc ha hb hc,
   parse_opChain_div sa sb sc va vb vc ha hb hc,
   ⟨.sub (.sub (.float va) (.float vb)) (.float vc),
    .sub (.sub (.float va) (.float vb)) (.float vc),
    parse_opChain_sub sa sb sc va vb vc ha hb hc,
    parse_parenChain_sub sa sb sc va vb vc ha hb hc, rfl⟩,
   ⟨.div (.div (.float va) (.float vb)) (.float vc),
    .div (.div (.float va) (.float vb)) (.float vc),
    parse_opChain_div sa sb sc va vb vc ha hb hc,
    parse_parenChain_div sa sb sc va vb vc ha hb hc, rfl⟩⟩

/-- Witness for C2 at concrete literals: `8 / 4 / 2` parses as
`(8 / 4) / 2`. -/
theorem claim_c2_left_assoc_witness :
    parse_expression (opChain (String.toList "8") '/'
        (String.toList "4") '/' (String.toList "2"))
      = .ok [] (.div (.div (.float 8) (.float 4)) (.float 2)) :=
  (claim_c2_left_assoc (String.toList "8") (String.toList "4")
    (String.toList "2") 8 4 2 (by decide) (by decide) (by decide)).2.2.2.1

end ClaimTheorems

end AstCalc

